import Mathlib

/-!
Verification of the block-level markdown parser (markdown/parser/block.go of
the markdown-server repository) against its natural-language specification.

The byte buffer is modelled as a list of natural numbers (byte values); an
out-of-range index reads as the byte 0, which never matters because the Go
code guards every read that can affect the result.  Index-based scanning
helpers are translated one-for-one from the source.
-/

namespace MD

/-- Newline byte. -/
def nlB : Nat := 10
/-- Space byte. -/
def spB : Nat := 32
/-- Tab byte. -/
def tabB : Nat := 9

/-- Convert a Lean string to the byte list that models it (ASCII inputs only). -/
def str2b (s : String) : List Nat := s.toList.map Char.toNat

/-- Read a byte at an index, 0 when out of range (Go panics there; the source
only reads guarded indices on the paths modelled here). -/
def byteAt (data : List Nat) (i : Nat) : Nat := data.getD i 0

/-- Go slice data[a:b] as a byte list. -/
def slice (data : List Nat) (a b : Nat) : List Nat := (data.drop a).take (b - a)

/-!
Every scanning loop is phrased with an explicit structural fuel argument (the
fuel is always at least the number of bytes left, so it never runs out) and a
Go-shaped unfolding equation is proved for each; this keeps all definitions
kernel-computable on concrete inputs.
-/

/-- Fuelled loop of skipChar. -/
def skipCharGo (data : List Nat) (c : Nat) : Nat → Nat → Nat
  | i, fuel + 1 =>
    if i < data.length ∧ byteAt data i = c then skipCharGo data c (i + 1) fuel
    else i
  | i, 0 => i

/-- Translation of skipChar: advance i while data[i] = c. -/
def skipChar (data : List Nat) (i : Nat) (c : Nat) : Nat :=
  skipCharGo data c i (data.length - i)

/-- Go-shaped unfolding of skipChar. -/
theorem skipChar_eq (data : List Nat) (i c : Nat) :
    skipChar data i c =
      if i < data.length ∧ byteAt data i = c then skipChar data (i + 1) c else i := by
  unfold skipChar
  cases h : data.length - i with
  | zero =>
    rw [skipCharGo]
    rw [if_neg (fun hc => absurd hc.1 (by omega))]
  | succ k =>
    rw [skipCharGo]
    have hk : data.length - (i + 1) = k := by omega
    rw [hk]

/-- Translation of skipCharN: like skipChar but at most mx characters. -/
def skipCharN (data : List Nat) (i : Nat) (c : Nat) (mx : Nat) : Nat :=
  match mx with
  | 0 => i
  | m + 1 =>
    if i < data.length ∧ byteAt data i = c then skipCharN data (i + 1) c m
    else i

/-- Fuelled loop of skipUntilChar. -/
def skipUntilCharGo (data : List Nat) (c : Nat) : Nat → Nat → Nat
  | i, fuel + 1 =>
    if i < data.length ∧ byteAt data i ≠ c then skipUntilCharGo data c (i + 1) fuel
    else i
  | i, 0 => i

/-- Translation of skipUntilChar: advance i while data[i] ≠ c. -/
def skipUntilChar (data : List Nat) (i : Nat) (c : Nat) : Nat :=
  skipUntilCharGo data c i (data.length - i)

/-- Go-shaped unfolding of skipUntilChar. -/
theorem skipUntilChar_eq (data : List Nat) (i c : Nat) :
    skipUntilChar data i c =
      if i < data.length ∧ byteAt data i ≠ c then skipUntilChar data (i + 1) c
      else i := by
  unfold skipUntilChar
  cases h : data.length - i with
  | zero =>
    rw [skipUntilCharGo]
    rw [if_neg (fun hc => absurd hc.1 (by omega))]
  | succ k =>
    rw [skipUntilCharGo]
    have hk : data.length - (i + 1) = k := by omega
    rw [hk]

/-- Modelled from the spec: byte classifier IsSpace lives in a repository file
that is not part of src/; ASCII whitespace as used throughout the parser. -/
def IsSpaceB (c : Nat) : Bool := c = 32 || c = 9 || c = 10 || c = 13 || c = 11 || c = 12

/-- Modelled from the spec: byte classifier IsAlnum lives in a repository file
that is not part of src/; ASCII letters and digits. -/
def IsAlnumB (c : Nat) : Bool :=
  (48 ≤ c && c ≤ 57) || (65 ≤ c && c ≤ 90) || (97 ≤ c && c ≤ 122)

/-- Fuelled loop of skipAlnum. -/
def skipAlnumGo (data : List Nat) : Nat → Nat → Nat
  | i, fuel + 1 =>
    if i < data.length ∧ IsAlnumB (byteAt data i) then skipAlnumGo data (i + 1) fuel
    else i
  | i, 0 => i

/-- Translation of skipAlnum. -/
def skipAlnum (data : List Nat) (i : Nat) : Nat :=
  skipAlnumGo data i (data.length - i)

/-- Translation of backChar: move i back while data[i-1] = c (structural on i). -/
def backChar (data : List Nat) : Nat → Nat → Nat
  | 0, _ => 0
  | i + 1, c => if byteAt data i = c then backChar data i c else i + 1

/-- Translation of backUntilChar: move i back while data[i-1] ≠ c. -/
def backUntilChar (data : List Nat) : Nat → Nat → Nat
  | 0, _ => 0
  | i + 1, c => if byteAt data i ≠ c then backUntilChar data i c else i + 1

/-- Fuelled loop of IsEmpty: scan the first line; a byte that is neither
space nor tab makes the whole test fail (0). -/
def isEmptyAuxGo (data : List Nat) : Nat → Nat → Nat
  | i, fuel + 1 =>
    if i < data.length ∧ byteAt data i ≠ nlB then
      if byteAt data i = spB ∨ byteAt data i = tabB then isEmptyAuxGo data (i + 1) fuel
      else 0
    else
      skipCharN data i nlB 1
  | i, 0 => skipCharN data i nlB 1

/-- Inner loop of IsEmpty at cursor i. -/
def isEmptyAux (data : List Nat) (i : Nat) : Nat :=
  isEmptyAuxGo data i (data.length - i)

/-- Go-shaped unfolding of isEmptyAux. -/
theorem isEmptyAux_eq (data : List Nat) (i : Nat) :
    isEmptyAux data i =
      if i < data.length ∧ byteAt data i ≠ nlB then
        if byteAt data i = spB ∨ byteAt data i = tabB then isEmptyAux data (i + 1)
        else 0
      else
        skipCharN data i nlB 1 := by
  unfold isEmptyAux
  cases h : data.length - i with
  | zero =>
    rw [isEmptyAuxGo]
    rw [if_neg (fun hc => absurd hc.1 (by omega))]
  | succ k =>
    rw [isEmptyAuxGo]
    have hk : data.length - (i + 1) = k := by omega
    rw [hk]

/-- Translation of IsEmpty: number of bytes to skip when the first line is
blank, 0 otherwise. -/
def IsEmptyB (data : List Nat) : Nat := isEmptyAux data 0

/-- Fuelled counting loop of isHRule over the rest of the line. -/
def isHRuleAuxGo (data : List Nat) (c : Nat) : Nat → Nat → Nat → Bool
  | i, n, fuel + 1 =>
    if i < data.length ∧ byteAt data i ≠ nlB then
      if byteAt data i = c then isHRuleAuxGo data c (i + 1) (n + 1) fuel
      else if byteAt data i ≠ spB then false
      else isHRuleAuxGo data c (i + 1) n fuel
    else
      n ≥ 3
  | _, n, 0 => n ≥ 3

/-- Counting loop of isHRule at cursor i with count n. -/
def isHRuleAux (data : List Nat) (i : Nat) (c : Nat) (n : Nat) : Bool :=
  isHRuleAuxGo data c i n (data.length - i)

/-- Go-shaped unfolding of isHRuleAux. -/
theorem isHRuleAux_eq (data : List Nat) (i c n : Nat) :
    isHRuleAux data i c n =
      if i < data.length ∧ byteAt data i ≠ nlB then
        if byteAt data i = c then isHRuleAux data (i + 1) c (n + 1)
        else if byteAt data i ≠ spB then false
        else isHRuleAux data (i + 1) c n
      else
        n ≥ 3 := by
  unfold isHRuleAux
  cases h : data.length - i with
  | zero =>
    rw [isHRuleAuxGo]
    rw [if_neg (fun hc => absurd hc.1 (by omega))]
  | succ k =>
    rw [isHRuleAuxGo]
    have hk : data.length - (i + 1) = k := by omega
    rw [hk]

/-- Translation of isHRule. -/
def isHRule (data : List Nat) : Bool :=
  let i := skipCharN data 0 spB 3
  let ch := byteAt data i
  if ch ≠ 42 ∧ ch ≠ 45 ∧ ch ≠ 95 then false
  else isHRuleAux data i ch 0

/-- Fuelled scan of the brace-delimited syntax in syntaxRange. -/
def synScanGo (data : List Nat) : Nat → Nat → Nat
  | i, fuel + 1 =>
    if i < data.length ∧ byteAt data i ≠ 125 ∧ byteAt data i ≠ nlB then
      synScanGo data (i + 1) fuel
    else i
  | i, 0 => i

/-- Scan of the brace-delimited syntax in syntaxRange: advance until a closing
brace (byte 125) or newline. -/
def synScan (data : List Nat) (i : Nat) : Nat :=
  synScanGo data i (data.length - i)

/-- Left-trim loop of syntaxRange: drop leading whitespace of the brace block. -/
def synTrimL (data : List Nat) (start syn : Nat) : Nat × Nat :=
  match syn with
  | 0 => (start, 0)
  | s + 1 =>
    if IsSpaceB (byteAt data start) then synTrimL data (start + 1) s
    else (start, s + 1)

/-- Right-trim loop of syntaxRange: drop trailing whitespace of the brace block. -/
def synTrimR (data : List Nat) (start syn : Nat) : Nat :=
  match syn with
  | 0 => 0
  | s + 1 =>
    if IsSpaceB (byteAt data (start + s)) then synTrimR data start s
    else s + 1

/-- Translation of syntaxRange; returns (syntaxStart, syntaxLen, new cursor). -/
def syntaxRange (data : List Nat) (i : Nat) : Nat × Nat × Nat :=
  let n := data.length
  if byteAt data i = 123 then
    let j := synScan data (i + 1)
    if j ≥ n ∨ byteAt data j ≠ 125 then (0, 0, i)
    else
      let syn := j - (i + 1)
      let (st1, syn1) := synTrimL data (i + 1) syn
      let syn2 := synTrimR data st1 syn1
      (st1, syn2, j + 1)
  else
    let j := skipUntilChar data i nlB
    (i, j - i, j)

/-- Translation of isFenceLine; the marker is modelled as the byte list of the
run (Go uses the substring).  Returns (end index, marker, syntax).  A result
end index of 0 means no fence line. -/
def isFenceLine (data : List Nat) (oldmarker : List Nat) : Nat × List Nat × List Nat :=
  let n := data.length
  let i0 := skipCharN data 0 spB 3
  if i0 ≥ n then (0, [], [])
  else
    let c := byteAt data i0
    if c ≠ 126 ∧ c ≠ 96 then (0, [], [])
    else
      let i1 := skipChar data i0 c
      let size := i1 - i0
      if size < 3 then (0, [], [])
      else
        let marker := List.replicate size c
        if oldmarker ≠ [] ∧ marker ≠ oldmarker then (0, [], [])
        else
          -- when reading the beginning marker, read the syntax
          if oldmarker = [] then
            let i2 := skipChar data i1 spB
            if i2 ≥ n then
              if i2 = n then (i2, marker, []) else (0, [], [])
            else
              let (synStart, synLen, i3) := syntaxRange data i2
              if synStart = 0 ∧ synLen = 0 then (0, [], [])
              else
                let syntax0 := slice data synStart (synStart + synLen)
                let i4 := skipChar data i3 spB
                if i4 ≥ n ∨ byteAt data i4 ≠ nlB then
                  if i4 = n then (i4, marker, syntax0) else (0, [], [])
                else (i4 + 1, marker, syntax0)
          else
            let i4 := skipChar data i1 spB
            if i4 ≥ n ∨ byteAt data i4 ≠ nlB then
              if i4 = n then (i4, marker, []) else (0, [], [])
            else (i4 + 1, marker, [])

/-- Monotonicity of skipUntilChar: the cursor never moves backwards. -/
theorem skipUntilChar_ge (data : List Nat) (i c : Nat) : i ≤ skipUntilChar data i c := by
  rw [skipUntilChar_eq]
  split
  next h => exact Nat.le_trans (Nat.le_succ i) (skipUntilChar_ge data (i + 1) c)
  next => exact Nat.le_refl i
termination_by data.length - i
decreasing_by omega

/-- Monotonicity of skipChar: the cursor never moves backwards. -/
theorem skipChar_ge (data : List Nat) (i c : Nat) : i ≤ skipChar data i c := by
  rw [skipChar_eq]
  split
  next h => exact Nat.le_trans (Nat.le_succ i) (skipChar_ge data (i + 1) c)
  next => exact Nat.le_refl i
termination_by data.length - i
decreasing_by omega

/-- Monotonicity of skipCharN. -/
theorem skipCharN_ge (data : List Nat) (i c mx : Nat) : i ≤ skipCharN data i c mx := by
  induction mx generalizing i with
  | zero => exact Nat.le_refl i
  | succ m ih =>
    rw [skipCharN]
    split
    · exact Nat.le_trans (Nat.le_succ i) (ih (i + 1))
    · exact Nat.le_refl i

/-- skipChar never moves past the end of the buffer (when starting inside). -/
theorem skipChar_le (data : List Nat) (i c : Nat) :
    skipChar data i c ≤ max i data.length := by
  rw [skipChar_eq]
  split
  next h =>
    have := skipChar_le data (i + 1) c
    omega
  next => exact Nat.le_max_left i _
termination_by data.length - i
decreasing_by omega

/-- skipUntilChar never moves past the end of the buffer (when starting inside). -/
theorem skipUntilChar_le (data : List Nat) (i c : Nat) :
    skipUntilChar data i c ≤ max i data.length := by
  rw [skipUntilChar_eq]
  split
  next h =>
    have := skipUntilChar_le data (i + 1) c
    omega
  next => exact Nat.le_max_left i _
termination_by data.length - i
decreasing_by omega

/-- skipCharN moves at most mx positions. -/
theorem skipCharN_le_add (data : List Nat) (i c mx : Nat) :
    skipCharN data i c mx ≤ i + mx := by
  induction mx generalizing i with
  | zero => exact Nat.le_refl i
  | succ m ih =>
    rw [skipCharN]
    split
    · have := ih (i + 1); omega
    · omega

/-- Fuelled line-consuming loop of fencedCodeBlock. -/
def fencedLoopEndGo (data : List Nat) (marker : List Nat) : Nat → Nat → Nat
  | beg, fuel + 1 =>
    let (fenceEnd, _, _) := isFenceLine (data.drop beg) marker
    if fenceEnd ≠ 0 then beg + fenceEnd
    else
      let e := skipUntilChar data beg nlB + 1
      if e ≥ data.length then 0
      else fencedLoopEndGo data marker e fuel
  | _, 0 => 0

/-- Line-consuming loop of fencedCodeBlock, tracking only the cursor; returns
the total number of bytes consumed, or 0 when no closing fence is found before
the end of the buffer. -/
def fencedLoopEnd (data : List Nat) (marker : List Nat) (beg : Nat) : Nat :=
  fencedLoopEndGo data marker beg (data.length - beg)

/-- The empty buffer has no fence line. -/
theorem isFenceLine_nil (om : List Nat) : isFenceLine [] om = (0, [], []) := rfl

/-- One unit of extra fuel changes nothing once the fuel covers the bytes left. -/
theorem fencedLoopEndGo_succ (data marker : List Nat) :
    ∀ (fuel beg : Nat), data.length - beg ≤ fuel →
      fencedLoopEndGo data marker beg (fuel + 1) = fencedLoopEndGo data marker beg fuel := by
  intro fuel
  induction fuel with
  | zero =>
    intro beg h
    rw [fencedLoopEndGo, fencedLoopEndGo]
    have hdrop : data.drop beg = [] := List.drop_eq_nil_of_le (by omega)
    rw [hdrop, isFenceLine_nil]
    simp only [ne_eq, not_true_eq_false, if_false]
    split <;> rfl
  | succ f ih =>
    intro beg h
    rw [fencedLoopEndGo, fencedLoopEndGo]
    rcases hfl : isFenceLine (data.drop beg) marker with ⟨fe, mk, sy⟩
    dsimp only
    split
    next => rfl
    next =>
      split
      next => rfl
      next he =>
        have hge := skipUntilChar_ge data beg nlB
        exact ih _ (by omega)

/-- Enough fuel computes the untruncated loop. -/
theorem fencedLoopEndGo_adequate (data marker : List Nat) :
    ∀ (fuel beg : Nat), data.length - beg ≤ fuel →
      fencedLoopEndGo data marker beg fuel = fencedLoopEnd data marker beg := by
  intro fuel
  induction fuel with
  | zero =>
    intro beg h
    unfold fencedLoopEnd
    rw [show data.length - beg = 0 from by omega]
  | succ f ih =>
    intro beg h
    rcases Nat.lt_or_ge (data.length - beg) (f + 1) with hlt | hge
    · rw [fencedLoopEndGo_succ data marker f beg (by omega)]
      exact ih beg (by omega)
    · unfold fencedLoopEnd
      rw [show data.length - beg = f + 1 from by omega]

/-- Go-shaped unfolding of fencedLoopEnd. -/
theorem fencedLoopEnd_eq (data marker : List Nat) (beg : Nat) :
    fencedLoopEnd data marker beg =
      (let (fenceEnd, _, _) := isFenceLine (data.drop beg) marker
      if fenceEnd ≠ 0 then beg + fenceEnd
      else
        let e := skipUntilChar data beg nlB + 1
        if e ≥ data.length then 0
        else fencedLoopEnd data marker e) := by
  conv_lhs => unfold fencedLoopEnd
  cases h : data.length - beg with
  | zero =>
    rw [fencedLoopEndGo]
    have hdrop : data.drop beg = [] := List.drop_eq_nil_of_le (by omega)
    rw [hdrop, isFenceLine_nil]
    simp only [ne_eq, not_true_eq_false, if_false]
    rw [if_pos (by have := skipUntilChar_ge data beg nlB; omega)]
  | succ k =>
    rw [fencedLoopEndGo]
    rcases hfl : isFenceLine (data.drop beg) marker with ⟨fe, mk, sy⟩
    dsimp only
    split
    next => rfl
    next =>
      split
      next => rfl
      next he =>
        have hge := skipUntilChar_ge data beg nlB
        exact fencedLoopEndGo_adequate data marker k _ (by omega)

/-- Translation of the recognition part of fencedCodeBlock: the number of
bytes consumed (0 when the construct is not a fenced code block).  This is the
value the parser uses both for dispatch and for the doRender = false calls. -/
def fencedCodeBlockLen (data : List Nat) : Nat :=
  let (beg, marker, _) := isFenceLine data []
  if beg = 0 ∨ beg ≥ data.length then 0
  else fencedLoopEnd data marker beg

/-- Translation of quotePrefix: length of a block-quote prefix (0–3 spaces,
a greater-than sign, and one optional following space), 0 when absent. -/
def quotePrefix (data : List Nat) : Nat :=
  let n := data.length
  let i := skipCharN data 0 spB 3
  if i < n ∧ byteAt data i = 62 then
    if i + 1 < n ∧ byteAt data (i + 1) = spB then i + 2
    else i + 1
  else 0

/-- Translation of terminateBlockquote: a blockquote ends at a blank line
followed by something that has no quote prefix and is not blank itself. -/
def terminateBlockquote (data : List Nat) (beg e : Nat) : Bool :=
  if IsEmptyB (data.drop beg) ≤ 0 then false
  else if e ≥ data.length then true
  else quotePrefix (data.drop e) = 0 ∧ IsEmptyB (data.drop e) = 0

/-- Translation of codePrefix: a tab or four spaces opens indented code. -/
def codePrefix (data : List Nat) : Nat :=
  let n := data.length
  if n ≥ 1 ∧ byteAt data 0 = tabB then 1
  else if n ≥ 4 ∧ byteAt data 3 = spB ∧ byteAt data 2 = spB ∧ byteAt data 1 = spB ∧
      byteAt data 0 = spB then 4
  else 0

/-- Translation of uliPrefix: up to 3 spaces, one of asterisk/plus/hyphen,
then a space or tab. -/
def uliPrefix (data : List Nat) : Nat :=
  let i := skipCharN data 0 spB 3
  if i + 1 ≥ data.length then 0
  else if (byteAt data i ≠ 42 ∧ byteAt data i ≠ 43 ∧ byteAt data i ≠ 45) ∨
      (byteAt data (i + 1) ≠ spB ∧ byteAt data (i + 1) ≠ tabB) then 0
  else i + 2

/-- Digit test for ordered-list prefixes. -/
def isDigitB (c : Nat) : Bool := 48 ≤ c && c ≤ 57

/-- Fuelled digit-run scan used by oliPrefix. -/
def skipDigitsGo (data : List Nat) : Nat → Nat → Nat
  | i, fuel + 1 =>
    if i < data.length ∧ isDigitB (byteAt data i) then skipDigitsGo data (i + 1) fuel
    else i
  | i, 0 => i

/-- Digit-run scan used by oliPrefix. -/
def skipDigits (data : List Nat) (i : Nat) : Nat :=
  skipDigitsGo data i (data.length - i)

/-- Go-shaped unfolding of skipDigits. -/
theorem skipDigits_eq (data : List Nat) (i : Nat) :
    skipDigits data i =
      if i < data.length ∧ isDigitB (byteAt data i) then skipDigits data (i + 1)
      else i := by
  unfold skipDigits
  cases h : data.length - i with
  | zero =>
    rw [skipDigitsGo]
    rw [if_neg (fun hc => absurd hc.1 (by omega))]
  | succ k =>
    rw [skipDigitsGo]
    have hk : data.length - (i + 1) = k := by omega
    rw [hk]

/-- Monotonicity of skipDigits. -/
theorem skipDigits_ge (data : List Nat) (i : Nat) : i ≤ skipDigits data i := by
  rw [skipDigits_eq]
  split
  next h => exact Nat.le_trans (Nat.le_succ i) (skipDigits_ge data (i + 1))
  next => exact Nat.le_refl i
termination_by data.length - i
decreasing_by omega

/-- Translation of oliPrefix: up to 3 spaces, one or more digits, a dot or
closing parenthesis, then a space or tab. -/
def oliPrefix (data : List Nat) : Nat :=
  let i0 := skipCharN data 0 spB 3
  let i := skipDigits data i0
  if i0 = i ∨ i + 1 ≥ data.length then 0
  else if (byteAt data i ≠ 46 ∧ byteAt data i ≠ 41) ∨
      (byteAt data (i + 1) ≠ spB ∧ byteAt data (i + 1) ≠ tabB) then 0
  else i + 2

/-- Translation of dliPrefix: a colon followed by a space or tab (the
documented no-op leading-space skip of the source contributes 0). -/
def dliPrefix (data : List Nat) : Nat :=
  if data.length < 2 then 0
  else if byteAt data 0 ≠ 58 ∨ (byteAt data 1 ≠ spB ∧ byteAt data 1 ≠ tabB) then 0
  else skipChar data 0 spB + 2

/-- Modelled from the spec: Go strconv.Atoi as used (error ignored) in the
ordered-list start capture.  A string of pure digits yields its value (clamped
to the int64 maximum on overflow, as Atoi reports MaxInt64 with ErrRange);
any other content (for example a leading space) yields 0 with an error that
the caller discards. -/
def goAtoi (s : List Nat) : Nat :=
  if s ≠ [] ∧ s.all (fun c => isDigitB c) then
    let v := s.foldl (fun acc c => acc * 10 + (c - 48)) 0
    if v ≤ 9223372036854775807 then v else 9223372036854775807
  else 0

/-!
Heading anchor sanitizer.  The Go function iterates over the runes of the
text and classifies them with unicode.IsLetter, unicode.IsNumber and
unicode.ToLower from the Go standard library, which are not part of this
repository; they are abstracted into a record of rune operations together
with the properties the Unicode tables provide.  Runes are modelled as
natural numbers (code points).
-/

/-- Rune classification and lowering operations used by sanitizeHeadingID
(Go unicode.IsLetter / unicode.IsNumber / unicode.ToLower). -/
structure Runes where
  isLetter : Nat → Bool
  isNumber : Nat → Bool
  toLower : Nat → Nat

/-- Letter-or-number test. -/
def Runes.alnum (rc : Runes) (r : Nat) : Bool := rc.isLetter r || rc.isNumber r

/-- Loop of sanitizeHeadingID: anchorName accumulates the result and
futureDash records that a separator is pending. -/
def sanitizeLoop (rc : Runes) : List Nat → List Nat → Bool → List Nat
  | [], acc, _ => acc
  | r :: rest, acc, fd =>
    if rc.alnum r then
      let acc1 := if fd ∧ acc.length > 0 then acc ++ [45] else acc
      sanitizeLoop rc rest (acc1 ++ [rc.toLower r]) false
    else
      sanitizeLoop rc rest acc true

/-- The literal placeholder id for an all-punctuation heading. -/
def emptyID : List Nat := str2b "empty"

/-- Translation of sanitizeHeadingID over abstract rune operations. -/
def sanitizeHeadingID (rc : Runes) (text : List Nat) : List Nat :=
  let anchorName := sanitizeLoop rc text [] false
  if anchorName.length = 0 then emptyID else anchorName

/-- ASCII instantiation of the rune operations (agrees with the Go standard
library on ASCII input); used by witnesses. -/
def asciiRunes : Runes where
  isLetter r := decide ((65 ≤ r ∧ r ≤ 90) ∨ (97 ≤ r ∧ r ≤ 122))
  isNumber r := decide (48 ≤ r ∧ r ≤ 57)
  toLower r := if 65 ≤ r ∧ r ≤ 90 then r + 32 else r

/-! ### Characterizations of the scanning primitives -/

/-- skipCharN stops exactly at the end of a run of c bounded by mx. -/
theorem skipCharN_stops (data : List Nat) (c : Nat) :
    ∀ (mx i k : Nat), k ≤ mx → (∀ m, m < k → byteAt data (i + m) = c) →
      i + k < data.length → byteAt data (i + k) ≠ c → skipCharN data i c mx = i + k := by
  intro mx
  induction mx with
  | zero => intro i k hk _ _ _; interval_cases k; simp [skipCharN]
  | succ m ih =>
    intro i k hk hrun hlen hstop
    match k, hk with
    | 0, _ =>
      rw [skipCharN]
      have hng : ¬(i < data.length ∧ byteAt data i = c) :=
        fun hc => hstop (by simpa using hc.2)
      rw [if_neg hng]
      omega
    | (s+1), hk =>
      rw [skipCharN]
      rw [if_pos ⟨by omega, by simpa using hrun 0 (by omega)⟩]
      have := ih (i + 1) s (by omega)
        (fun m hm => by have := hrun (m + 1) (by omega); convert this using 2; omega)
        (by omega) (by convert hstop using 2; omega)
      omega

/-- Every byte strictly before the stopping point of skipCharN equals c. -/
theorem skipCharN_run (data : List Nat) (c : Nat) :
    ∀ (mx i m : Nat), i ≤ m → m < skipCharN data i c mx → byteAt data m = c := by
  intro mx
  induction mx with
  | zero => intro i m h1 h2; simp [skipCharN] at h2; omega
  | succ mx ih =>
    intro i m h1 h2
    rw [skipCharN] at h2
    split at h2
    next hcond =>
      rcases Nat.eq_or_lt_of_le h1 with rfl | hlt
      · exact hcond.2
      · exact ih (i + 1) m hlt h2
    next => omega

/-- Every byte strictly before the stopping point of skipDigits is a digit. -/
theorem skipDigits_run (data : List Nat) (i m : Nat) (h1 : i ≤ m)
    (h2 : m < skipDigits data i) : isDigitB (byteAt data m) = true := by
  rw [skipDigits_eq] at h2
  split at h2
  next hcond =>
    rcases Nat.eq_or_lt_of_le h1 with rfl | hlt
    · exact hcond.2
    · exact skipDigits_run data (i + 1) m hlt h2
  next => omega
termination_by data.length - i
decreasing_by omega

/-- skipDigits stops at a non-digit (or at the end of the buffer). -/
theorem skipDigits_stop (data : List Nat) (i : Nat) :
    skipDigits data i ≥ data.length ∨ isDigitB (byteAt data (skipDigits data i)) = false := by
  rw [skipDigits_eq]
  split
  next hcond => exact skipDigits_stop data (i + 1)
  next hcond =>
    rcases Nat.lt_or_ge i data.length with hlt | hge
    · right
      by_contra hd
      exact hcond ⟨hlt, by simpa using hd⟩
    · left; omega
termination_by data.length - i
decreasing_by omega

/-- skipChar stops at a byte different from c (or at the end of the buffer). -/
theorem skipChar_stop (data : List Nat) (i c : Nat) :
    skipChar data i c ≥ data.length ∨ byteAt data (skipChar data i c) ≠ c := by
  rw [skipChar_eq]
  split
  next hcond => exact skipChar_stop data (i + 1) c
  next hcond =>
    rcases Nat.lt_or_ge i data.length with hlt | hge
    · right; intro hc; exact hcond ⟨hlt, hc⟩
    · left; omega
termination_by data.length - i
decreasing_by omega

/-- Every byte strictly before the stopping point of skipChar equals c. -/
theorem skipChar_run (data : List Nat) (i c m : Nat) (h1 : i ≤ m)
    (h2 : m < skipChar data i c) : byteAt data m = c := by
  rw [skipChar_eq] at h2
  split at h2
  next hcond =>
    rcases Nat.eq_or_lt_of_le h1 with rfl | hlt
    · exact hcond.2
    · exact skipChar_run data (i + 1) c m hlt h2
  next => omega
termination_by data.length - i
decreasing_by omega

/-- skipUntilChar stops at c or at the end of the buffer. -/
theorem skipUntilChar_stop (data : List Nat) (i c : Nat) :
    skipUntilChar data i c ≥ data.length ∨ byteAt data (skipUntilChar data i c) = c := by
  rw [skipUntilChar_eq]
  split
  next hcond => exact skipUntilChar_stop data (i + 1) c
  next hcond =>
    rcases Nat.lt_or_ge i data.length with hlt | hge
    · right
      by_contra hc
      exact hcond ⟨hlt, hc⟩
    · left; omega
termination_by data.length - i
decreasing_by omega

/-- Every byte strictly before the stopping point of skipUntilChar differs from c. -/
theorem skipUntilChar_run (data : List Nat) (i c m : Nat) (h1 : i ≤ m)
    (h2 : m < skipUntilChar data i c) : byteAt data m ≠ c := by
  rw [skipUntilChar_eq] at h2
  split at h2
  next hcond =>
    rcases Nat.eq_or_lt_of_le h1 with rfl | hlt
    · exact hcond.2
    · exact skipUntilChar_run data (i + 1) c m hlt h2
  next => omega
termination_by data.length - i
decreasing_by omega

/-! ### Spec-side predicates, written from the words of the specification -/

/-- Spec wording: the line at the start of the buffer is blank, that is, every
byte up to the first newline is a space or a tab (and the buffer is not empty). -/
def specBlankLine (x : List Nat) : Prop :=
  x ≠ [] ∧ ∀ m, m < x.length → (∀ j, j ≤ m → byteAt x j ≠ nlB) →
    (byteAt x m = spB ∨ byteAt x m = tabB)

/-- Spec wording: the buffer begins with zero to three spaces followed by a
greater-than sign. -/
def specQuoteStart (data : List Nat) : Prop :=
  ∃ k, k ≤ 3 ∧ (∀ m, m < k → byteAt data m = spB) ∧ k < data.length ∧ byteAt data k = 62

/-- Soundness half of the IsEmpty characterization. -/
theorem isEmptyAux_pos_sound (x : List Nat) (i : Nat) (hp : 0 < isEmptyAux x i) :
    ∀ m, i ≤ m → m < x.length → (∀ j, i ≤ j → j ≤ m → byteAt x j ≠ nlB) →
      (byteAt x m = spB ∨ byteAt x m = tabB) := by
  intro m him hmx hnonl
  rw [isEmptyAux_eq] at hp
  split at hp
  next hcond =>
    split at hp
    next hsp =>
      rcases Nat.eq_or_lt_of_le him with rfl | hlt
      · exact hsp
      · exact isEmptyAux_pos_sound x (i + 1) hp m hlt hmx
          (fun j hj1 hj2 => hnonl j (by omega) hj2)
    next => omega
  next hcond =>
    rcases Nat.lt_or_ge i x.length with hlt | hge
    · exact absurd (by push_neg at hcond; exact hcond hlt) (hnonl i (le_refl i) him)
    · omega
termination_by x.length - i
decreasing_by omega

/-- Completeness half of the IsEmpty characterization. -/
theorem isEmptyAux_pos_complete (x : List Nat) (i : Nat) (hi : i ≤ x.length)
    (hx : 0 < x.length)
    (hb : ∀ m, i ≤ m → m < x.length → (∀ j, i ≤ j → j ≤ m → byteAt x j ≠ nlB) →
      (byteAt x m = spB ∨ byteAt x m = tabB)) :
    0 < isEmptyAux x i := by
  rw [isEmptyAux_eq]
  split
  next hcond =>
    have hsp : byteAt x i = spB ∨ byteAt x i = tabB :=
      hb i (le_refl i) hcond.1 (fun j hj1 hj2 => by
        have : j = i := by omega
        subst this; exact hcond.2)
    rw [if_pos hsp]
    exact isEmptyAux_pos_complete x (i + 1) (by omega) hx
      (fun m hm hmx hnl => hb m (by omega) hmx (fun j hj1 hj2 => by
        rcases Nat.eq_or_lt_of_le hj1 with rfl | hlt
        · exact hcond.2
        · exact hnl j hlt hj2))
  next hcond =>
    push_neg at hcond
    rcases Nat.lt_or_ge i x.length with hlt | hge
    · have hnl : byteAt x i = nlB := hcond hlt
      rw [skipCharN, if_pos ⟨hlt, hnl⟩]
      have := skipCharN_ge x (i + 1) nlB 0
      omega
    · have : skipCharN x i nlB 1 = i := by
        rw [skipCharN, if_neg (by intro hc; omega)]
      omega
termination_by x.length - i
decreasing_by omega

/-- Characterization of IsEmpty: positive exactly on a leading blank line. -/
theorem IsEmptyB_pos_iff (x : List Nat) : 0 < IsEmptyB x ↔ specBlankLine x := by
  constructor
  · intro hp
    refine ⟨?_, ?_⟩
    · intro hnil
      subst hnil
      simp [IsEmptyB, isEmptyAux, isEmptyAuxGo, skipCharN] at hp
    · intro m hm hnl
      exact isEmptyAux_pos_sound x 0 hp m (Nat.zero_le m) hm
        (fun j _ hj2 => hnl j hj2)
  · intro ⟨hne, hb⟩
    have hx : 0 < x.length := List.length_pos.mpr hne
    exact isEmptyAux_pos_complete x 0 (Nat.zero_le _) hx
      (fun m _ hmx hnl => hb m hmx (fun j hj => hnl j (Nat.zero_le j) hj))

/-- Characterization of quotePrefix being positive. -/
theorem quotePrefix_pos_iff (data : List Nat) :
    quotePrefix data ≠ 0 ↔ specQuoteStart data := by
  constructor
  · intro hq
    simp only [quotePrefix] at hq
    split at hq
    next hcond =>
      refine ⟨skipCharN data 0 spB 3, ?_, ?_, hcond.1, hcond.2⟩
      · have := skipCharN_le_add data 0 spB 3; omega
      · intro m hm
        exact skipCharN_run data spB 3 0 m (Nat.zero_le m) hm
    next => omega
  · intro ⟨k, hk3, hrun, hklen, hkgt⟩
    have heq : skipCharN data 0 spB 3 = k := by
      have := skipCharN_stops data spB 3 0 k hk3
        (fun m hm => by simpa using hrun m hm) (by simpa using hklen)
        (by simp only [Nat.zero_add, hkgt]; decide)
      simpa using this
    simp only [quotePrefix]
    rw [heq, if_pos ⟨hklen, hkgt⟩]
    split <;> omega

/-- Exact value of quotePrefix on a quote-prefixed buffer: it covers the
spaces, the greater-than sign, and one following space when present. -/
theorem quotePrefix_value (data : List Nat) (k : Nat) (hk3 : k ≤ 3)
    (hrun : ∀ m, m < k → byteAt data m = spB) (hklen : k < data.length)
    (hkgt : byteAt data k = 62) :
    quotePrefix data =
      if k + 1 < data.length ∧ byteAt data (k + 1) = spB then k + 2 else k + 1 := by
  have heq : skipCharN data 0 spB 3 = k := by
    have := skipCharN_stops data spB 3 0 k hk3
      (fun m hm => by simpa using hrun m hm) (by simpa using hklen)
      (by simp only [Nat.zero_add, hkgt]; decide)
    simpa using this
  simp only [quotePrefix]
  rw [heq, if_pos ⟨hklen, hkgt⟩]

/-- CLAIM C7: quotePrefix returns a nonzero length exactly for inputs
beginning with zero to three spaces then a greater-than sign, the returned
length additionally covering one space after the sign when present; and
terminateBlockquote holds exactly when the current line is blank and either
the end of input is reached or the next line is neither blank nor
quote-prefixed. -/
theorem c7_quote_prefix_and_termination (data : List Nat) (beg e : Nat) :
    (quotePrefix data ≠ 0 ↔ specQuoteStart data) ∧
    (∀ k, k ≤ 3 → (∀ m, m < k → byteAt data m = spB) → k < data.length →
      byteAt data k = 62 →
      quotePrefix data =
        if k + 1 < data.length ∧ byteAt data (k + 1) = spB then k + 2 else k + 1) ∧
    (terminateBlockquote data beg e = true ↔
      (specBlankLine (data.drop beg) ∧
        (e ≥ data.length ∨
          (¬specQuoteStart (data.drop e) ∧ ¬specBlankLine (data.drop e))))) := by
  refine ⟨quotePrefix_pos_iff data, quotePrefix_value data, ?_⟩
  unfold terminateBlockquote
  split
  next hble =>
    have : ¬specBlankLine (data.drop beg) := by
      rw [← IsEmptyB_pos_iff]; omega
    simp [this]
  next hbgt =>
    have hblank : specBlankLine (data.drop beg) := by
      rw [← IsEmptyB_pos_iff]; omega
    split
    next hend => simp [hblank, hend]
    next hend =>
      push_neg at hend
      have hq : quotePrefix (data.drop e) = 0 ↔ ¬specQuoteStart (data.drop e) := by
        rw [← quotePrefix_pos_iff]; tauto
      have hb : IsEmptyB (data.drop e) = 0 ↔ ¬specBlankLine (data.drop e) := by
        rw [← IsEmptyB_pos_iff]; omega
      simp only [decide_eq_true_eq, hblank, true_and]
      rw [hq, hb]
      constructor
      · intro h; exact Or.inr h
      · intro h
        rcases h with h | h
        · omega
        · exact h

/-- Witness for C7 at a concrete input. -/
theorem c7_witness : quotePrefix (str2b "  > a\n") = 4 := by
  have h := (c7_quote_prefix_and_termination (str2b "  > a\n") 0 0).2.1 2
    (by decide) (by decide) (by decide) (by decide)
  simpa using h

/-! ### Properties of the heading-id sanitizer -/

/-- Unicode-table facts about the rune operations that the Go standard
library guarantees: lowering preserves letters-or-numbers and is idempotent,
a hyphen is neither, and the letters of the placeholder are lower-case. -/
def RunesOK (rc : Runes) : Prop :=
  (∀ r, rc.alnum r = true → rc.alnum (rc.toLower r) = true) ∧
  (∀ r, rc.alnum r = true → rc.toLower (rc.toLower r) = rc.toLower r) ∧
  rc.alnum 45 = false ∧
  (∀ c ∈ emptyID, rc.alnum c = true ∧ rc.toLower c = c)

/-- Every rune of w is a hyphen or a lower-cased letter-or-number. -/
def SanElems (rc : Runes) (w : List Nat) : Prop :=
  ∀ c ∈ w, c = 45 ∨ (rc.alnum c = true ∧ rc.toLower c = c)

/-- No two adjacent hyphens. -/
def noAdj : List Nat → Prop
  | [] => True
  | [_] => True
  | a :: b :: rest => ¬(a = 45 ∧ b = 45) ∧ noAdj (b :: rest)

/-- The first rune, when any, is not a hyphen. -/
def headND : List Nat → Prop
  | [] => True
  | c :: _ => c ≠ 45

/-- The last rune, when any, is not a hyphen. -/
def lastND : List Nat → Prop
  | [] => True
  | [c] => c ≠ 45
  | _ :: rest => lastND rest

theorem lastND_concat (w : List Nat) (x : Nat) (hx : x ≠ 45) : lastND (w ++ [x]) := by
  induction w with
  | nil => exact hx
  | cons a w ih =>
    cases w with
    | nil => exact ih
    | cons b w => exact ih

theorem headND_concat (w : List Nat) (x : Nat) (hw : headND w) (hx : x ≠ 45) :
    headND (w ++ [x]) := by
  cases w with
  | nil => exact hx
  | cons a w => exact hw

theorem noAdj_concat (w : List Nat) (x : Nat) (hw : noAdj w) (hx : x ≠ 45) :
    noAdj (w ++ [x]) := by
  induction w with
  | nil => trivial
  | cons a w ih =>
    cases w with
    | nil => exact ⟨fun hc => hx hc.2, trivial⟩
    | cons b w => exact ⟨hw.1, ih hw.2⟩

theorem noAdj_concat_dash (w : List Nat) (x : Nat) (hw : noAdj w) (hl : lastND w)
    (hx : x ≠ 45) : noAdj (w ++ [45, x]) := by
  induction w with
  | nil => exact ⟨fun hc => hx hc.2, trivial⟩
  | cons a w ih =>
    cases w with
    | nil => exact ⟨fun hc => hl hc.1, fun hc => hx hc.2, trivial⟩
    | cons b w => exact ⟨hw.1, ih hw.2 hl⟩

theorem SanElems_concat (rc : Runes) (w : List Nat) (x : Nat)
    (hw : SanElems rc w) (hx : x = 45 ∨ (rc.alnum x = true ∧ rc.toLower x = x)) :
    SanElems rc (w ++ [x]) := by
  intro c hc
  rcases List.mem_append.mp hc with h | h
  · exact hw c h
  · simp at h; subst h; exact hx

/-- Bundle of the output-shape invariants maintained by sanitizeLoop. -/
def SanGood (rc : Runes) (w : List Nat) : Prop :=
  SanElems rc w ∧ noAdj w ∧ headND w ∧ lastND w

/-- The sanitizer loop preserves the output-shape invariants. -/
theorem sanitizeLoop_good (rc : Runes) (hok : RunesOK rc) :
    ∀ (w acc : List Nat) (fd : Bool), SanGood rc acc →
      SanGood rc (sanitizeLoop rc w acc fd) := by
  intro w
  induction w with
  | nil => intro acc fd h; exact h
  | cons r rest ih =>
    intro acc fd h
    obtain ⟨he, hn, hh, hl⟩ := h
    rw [sanitizeLoop]
    split
    next halnum =>
      have ht : rc.alnum (rc.toLower r) = true := hok.1 r halnum
      have htt : rc.toLower (rc.toLower r) = rc.toLower r := hok.2.1 r halnum
      have htd : rc.toLower r ≠ 45 := by
        intro hc; rw [hc] at ht; rw [hok.2.2.1] at ht; exact Bool.false_ne_true ht
      split
      next hfd =>
        refine ih ((acc ++ [45]) ++ [rc.toLower r]) false ⟨?_, ?_, ?_, ?_⟩
        · exact SanElems_concat rc _ _
            (SanElems_concat rc _ _ he (Or.inl rfl)) (Or.inr ⟨ht, htt⟩)
        · rw [List.append_assoc]
          exact noAdj_concat_dash acc _ hn hl htd
        · rw [List.append_assoc]
          have : acc ≠ [] := by
            intro hc; rw [hc] at hfd; simp at hfd
          cases acc with
          | nil => exact absurd rfl this
          | cons a w => exact hh
        · exact lastND_concat _ _ htd
      next hfd =>
        refine ih (acc ++ [rc.toLower r]) false ⟨?_, ?_, ?_, ?_⟩
        · exact SanElems_concat rc _ _ he (Or.inr ⟨ht, htt⟩)
        · exact noAdj_concat acc _ hn htd
        · exact headND_concat acc _ hh htd
        · exact lastND_concat _ _ htd
    next halnum =>
      exact ih acc true ⟨he, hn, hh, hl⟩

/-- On text with no letter and no number the sanitizer loop returns its
accumulator unchanged. -/
theorem sanitizeLoop_none (rc : Runes) :
    ∀ (w acc : List Nat) (fd : Bool), (∀ c ∈ w, rc.alnum c = false) →
      sanitizeLoop rc w acc fd = acc := by
  intro w
  induction w with
  | nil => intro acc fd _; rfl
  | cons r rest ih =>
    intro acc fd hno
    rw [sanitizeLoop]
    rw [if_neg (by rw [hno r (by simp)]; exact Bool.false_ne_true)]
    exact ih acc true (fun c hc => hno c (by simp [hc]))

/-- Running the sanitizer loop over an already-sanitized word reproduces it. -/
theorem sanitizeLoop_restore (rc : Runes) (hok : RunesOK rc) :
    ∀ (n : Nat) (w acc : List Nat) (fd : Bool), w.length ≤ n →
      SanElems rc w → noAdj w → headND w → lastND w →
      (fd = true → w ≠ [] ∧ acc ≠ []) →
      sanitizeLoop rc w acc fd = acc ++ (if fd then 45 :: w else w) := by
  intro n
  induction n with
  | zero =>
    intro w acc fd hlen _ _ _ _ hfd
    have hw : w = [] := List.length_eq_zero.mp (Nat.le_zero.mp hlen)
    subst hw
    cases fd with
    | false => simp [sanitizeLoop]
    | true => exact absurd rfl (fun hc => (hfd hc).1 rfl)
  | succ n ih =>
    intro w acc fd hlen he hn hh hl hfd
    cases w with
    | nil =>
      cases fd with
      | false => simp [sanitizeLoop]
      | true => exact absurd rfl (fun hc => (hfd hc).1 rfl)
    | cons r rest =>
      have hr : r ≠ 45 := hh
      have hral : rc.alnum r = true ∧ rc.toLower r = r := by
        rcases he r (by simp) with h | h
        · exact absurd h hr
        · exact h
      rw [sanitizeLoop, if_pos hral.1]
      have hstep : ∀ acc2 : List Nat, acc2 ≠ [] →
          sanitizeLoop rc rest acc2 false = acc2 ++ rest := by
        intro acc2 hacc2
        cases rest with
        | nil => simp [sanitizeLoop]
        | cons c w2 =>
          by_cases hc45 : c = 45
          · subst hc45
            rw [sanitizeLoop,
              if_neg (by rw [hok.2.2.1]; exact Bool.false_ne_true)]
            have hw2ne : w2 ≠ [] := by
              intro hc
              subst hc
              exact hl rfl
            have := ih w2 acc2 true (by simp at hlen; omega)
              (fun c hc => he c (by simp [hc]))
              (by
                cases w2 with
                | nil => trivial
                | cons d w3 => exact hn.2.2)
              (by
                cases w2 with
                | nil => trivial
                | cons d w3 =>
                  intro hd
                  exact hn.2.1 ⟨rfl, hd⟩)
              (by
                cases w2 with
                | nil => exact absurd rfl hw2ne
                | cons d w3 => exact hl)
              (fun _ => ⟨hw2ne, hacc2⟩)
            rw [this]
            simp
          · have := ih (c :: w2) acc2 false (by simp at hlen ⊢; omega)
              (fun d hd => he d (by simp [hd]))
              hn.2 hc45 hl (by intro hc; exact absurd hc (by simp))
            rw [this]
            simp
      cases fd with
      | false =>
        simp only [Bool.false_eq_true, false_and, if_false]
        rw [hral.2, hstep (acc ++ [r]) (by simp)]
        simp
      | true =>
        have hacc : acc ≠ [] := (hfd rfl).2
        have hpos : acc.length > 0 := List.length_pos.mpr hacc
        simp only [true_and, hpos, if_pos, if_true]
        rw [hral.2, hstep ((acc ++ [45]) ++ [r]) (by simp)]
        simp

/-- CLAIM C8: heading auto-id derivation is idempotent, and a heading text
with no letter and no digit maps to the literal placeholder id. -/
theorem c8_sanitize_idempotent (rc : Runes) (x : List Nat) (hok : RunesOK rc) :
    sanitizeHeadingID rc (sanitizeHeadingID rc x) = sanitizeHeadingID rc x ∧
    ((∀ c ∈ x, rc.isLetter c = false ∧ rc.isNumber c = false) →
      sanitizeHeadingID rc x = emptyID) := by
  have hempty : ∀ w : List Nat, w ≠ [] → SanElems rc w → noAdj w → headND w →
      lastND w → sanitizeHeadingID rc w = w := by
    intro w hne he hn hh hl
    show (if (sanitizeLoop rc w [] false).length = 0 then emptyID
      else sanitizeLoop rc w [] false) = w
    rw [sanitizeLoop_restore rc hok w.length w [] false (le_refl _) he hn hh hl
      (by intro hc; exact absurd hc (by simp))]
    simp only [if_neg Bool.false_ne_true, List.nil_append]
    rw [if_neg (by simpa using fun hc => hne (List.length_eq_zero.mp hc))]
  constructor
  · have hgood := sanitizeLoop_good rc hok x [] false
      ⟨fun c hc => absurd hc (List.not_mem_nil c), trivial, trivial, trivial⟩
    obtain ⟨he, hn, hh, hl⟩ := hgood
    have hxval : sanitizeHeadingID rc x =
        if (sanitizeLoop rc x [] false).length = 0 then emptyID
        else sanitizeLoop rc x [] false := rfl
    by_cases hz : (sanitizeLoop rc x [] false).length = 0
    · rw [hxval, if_pos hz]
      apply hempty emptyID (by simp [emptyID, str2b])
      · intro c hc
        exact Or.inr (hok.2.2.2 c hc)
      · simp [emptyID, str2b, noAdj]
      · simp [emptyID, str2b, headND]
      · simp [emptyID, str2b, lastND]
    · rw [hxval, if_neg hz]
      exact hempty _ (by simpa using fun hc => hz (by rw [hc]; rfl)) he hn hh hl
  · intro hnone
    show (if (sanitizeLoop rc x [] false).length = 0 then emptyID
      else sanitizeLoop rc x [] false) = emptyID
    rw [sanitizeLoop_none rc x [] false (by
      intro c hc
      have := hnone c hc
      simp [Runes.alnum, this.1, this.2])]
    rfl

/-- RunesOK holds of the ASCII instantiation. -/
theorem asciiRunes_ok : RunesOK asciiRunes := by
  refine ⟨?_, ?_, ?_, ?_⟩
  · intro r h
    simp only [asciiRunes, Runes.alnum, Bool.or_eq_true, decide_eq_true_eq] at h ⊢
    split <;> omega
  · intro r h
    simp only [asciiRunes, Runes.alnum, Bool.or_eq_true, decide_eq_true_eq] at h ⊢
    split <;> (try split) <;> omega
  · decide
  · decide

/-- Witness for C8 at a concrete heading text. -/
theorem c8_witness :
    sanitizeHeadingID asciiRunes
        (sanitizeHeadingID asciiRunes (str2b "Heading 1: The Start!")) =
      sanitizeHeadingID asciiRunes (str2b "Heading 1: The Start!") ∧
    sanitizeHeadingID asciiRunes (str2b "!!! ???") = emptyID := by
  refine ⟨(c8_sanitize_idempotent asciiRunes (str2b "Heading 1: The Start!")
    asciiRunes_ok).1, ?_⟩
  exact (c8_sanitize_idempotent asciiRunes (str2b "!!! ???") asciiRunes_ok).2
    (by decide)

/-- CLAIM C10: the sanitized id is non-empty and consists only of hyphens and
lower-cased letters-or-numbers, hyphens never leading, trailing or adjacent;
the empty text also maps to the placeholder. -/
theorem c10_sanitize_output (rc : Runes) (x : List Nat) (hok : RunesOK rc) :
    sanitizeHeadingID rc x ≠ [] ∧
    SanElems rc (sanitizeHeadingID rc x) ∧
    noAdj (sanitizeHeadingID rc x) ∧
    headND (sanitizeHeadingID rc x) ∧
    lastND (sanitizeHeadingID rc x) ∧
    sanitizeHeadingID rc [] = emptyID := by
  have hgood := sanitizeLoop_good rc hok x [] false
    ⟨fun c hc => absurd hc (List.not_mem_nil c), trivial, trivial, trivial⟩
  have hemp : SanElems rc emptyID ∧ noAdj emptyID ∧ headND emptyID ∧ lastND emptyID := by
    refine ⟨fun c hc => Or.inr (hok.2.2.2 c hc), ?_, ?_, ?_⟩
    · simp [emptyID, str2b, noAdj]
    · simp [emptyID, str2b, headND]
    · simp [emptyID, str2b, lastND]
  have hxval : sanitizeHeadingID rc x =
      if (sanitizeLoop rc x [] false).length = 0 then emptyID
      else sanitizeLoop rc x [] false := rfl
  by_cases hz : (sanitizeLoop rc x [] false).length = 0
  · rw [hxval, if_pos hz]
    refine ⟨by simp [emptyID, str2b], hemp.1, hemp.2.1, hemp.2.2.1, hemp.2.2.2, rfl⟩
  · rw [hxval, if_neg hz]
    refine ⟨by simpa using fun hc => hz (by rw [hc]; rfl),
      hgood.1, hgood.2.1, hgood.2.2.1, hgood.2.2.2, rfl⟩

/-- Witness for C10 at a concrete input. -/
theorem c10_witness :
    sanitizeHeadingID asciiRunes (str2b "A  B") ≠ [] ∧
    SanElems asciiRunes (sanitizeHeadingID asciiRunes (str2b "A  B")) ∧
    noAdj (sanitizeHeadingID asciiRunes (str2b "A  B")) ∧
    headND (sanitizeHeadingID asciiRunes (str2b "A  B")) ∧
    lastND (sanitizeHeadingID asciiRunes (str2b "A  B")) ∧
    sanitizeHeadingID asciiRunes [] = emptyID :=
  c10_sanitize_output asciiRunes (str2b "A  B") asciiRunes_ok

/-! ### Fenced code block recognition (C1) -/

/-- A nonzero byte is read inside the buffer. -/
theorem byteAt_ne_zero_lt (data : List Nat) (m : Nat) (h : byteAt data m ≠ 0) :
    m < data.length := by
  by_contra hge
  rw [byteAt, List.getD_eq_default] at h
  · exact h rfl
  · omega

/-- skipChar stops exactly at the end of a run of c. -/
theorem skipChar_stops (data : List Nat) (c : Nat) :
    ∀ (s i : Nat), (∀ m, m < s → byteAt data (i + m) = c) →
      byteAt data (i + s) ≠ c → i + s ≤ data.length → skipChar data i c = i + s := by
  intro s
  induction s with
  | zero =>
    intro i _ hstop _
    rw [skipChar_eq, if_neg (fun hc => hstop (by simpa using hc.2))]
    omega
  | succ s ih =>
    intro i hrun hstop hlen
    rw [skipChar_eq,
      if_pos ⟨by omega, by simpa using hrun 0 (by omega)⟩]
    have := ih (i + 1)
      (fun m hm => by have := hrun (m + 1) (by omega); convert this using 2; omega)
      (by convert hstop using 2; omega) (by omega)
    omega

/-- Spec wording: the line is a closing fence for fence character ch with a
run of exactly runLen characters: up to three leading spaces, the run, then
optional spaces, then a newline or the end of the input. -/
def specCloseFenceExact (line : List Nat) (ch runLen : Nat) : Prop :=
  ∃ k t, k ≤ 3 ∧ (∀ m, m < k → byteAt line m = spB) ∧
    (∀ m, m < runLen → byteAt line (k + m) = ch) ∧
    byteAt line (k + runLen) ≠ ch ∧
    (∀ m, m < t → byteAt line (k + runLen + m) = spB) ∧
    (k + runLen + t = line.length ∨ byteAt line (k + runLen + t) = nlB)

/-- Spec wording: the line is a closing fence for ch with a run at least
runLen long (the claim's greater-or-equal reading). -/
def specCloseFenceGE (line : List Nat) (ch runLen : Nat) : Prop :=
  ∃ s, runLen ≤ s ∧ specCloseFenceExact line ch s

/-- Two replicated lists are equal only when lengths and (for nonempty)
elements agree. -/
theorem replicate_eq_replicate (a b x y : Nat)
    (h : List.replicate a x = List.replicate b y) : a = b ∧ (0 < a → x = y) := by
  have hlen : a = b := by
    have := congrArg List.length h
    simpa using this
  subst hlen
  refine ⟨rfl, fun hpos => ?_⟩
  cases a with
  | zero => omega
  | succ n =>
    have := congrArg List.head? h
    simpa [List.replicate] using this

/-- A closing-fence line is recognized by isFenceLine with the opening marker
exactly when the spec-side exact-run predicate holds. -/
theorem isFenceLine_close_iff (line : List Nat) (ch size : Nat)
    (hch : ch = 96 ∨ ch = 126) (hsz : 3 ≤ size) :
    (isFenceLine line (List.replicate size ch)).1 ≠ 0 ↔
      specCloseFenceExact line ch size := by
  have hch0 : ch ≠ 0 := by rcases hch with h | h <;> omega
  have hchsp : ch ≠ spB := by rcases hch with h | h <;> simp [h, spB]
  have hchnl : ch ≠ nlB := by rcases hch with h | h <;> simp [h, nlB]
  have hmne : List.replicate size ch ≠ [] := by
    simp [List.replicate_eq_nil]
    omega
  constructor
  · intro hne
    by_cases h1 : skipCharN line 0 spB 3 ≥ line.length
    · exfalso; apply hne; simp only [isFenceLine]; rw [if_pos h1]
    set i0 := skipCharN line 0 spB 3 with hi0def
    by_cases h2 : byteAt line i0 ≠ 126 ∧ byteAt line i0 ≠ 96
    · exfalso; apply hne; simp only [isFenceLine]
      rw [← hi0def, if_neg h1, if_pos h2]
    set c := byteAt line i0 with hcdef
    set i1 := skipChar line i0 c with hi1def
    by_cases h3 : i1 - i0 < 3
    · exfalso; apply hne; simp only [isFenceLine]
      rw [← hi0def, ← hcdef, ← hi1def, if_neg h1, if_neg h2, if_pos h3]
    by_cases h4 : List.replicate (i1 - i0) c ≠ List.replicate size ch
    · exfalso; apply hne; simp only [isFenceLine]
      rw [← hi0def, ← hcdef, ← hi1def, if_neg h1, if_neg h2, if_neg h3,
        if_pos ⟨hmne, h4⟩]
    push_neg at h3 h4
    obtain ⟨hszeq, hcheq⟩ := replicate_eq_replicate _ _ _ _ h4
    have hcch : c = ch := hcheq (by omega)
    set i4 := skipChar line i1 spB with hi4def
    have hneq : ¬(List.replicate size ch ≠ [] ∧
        List.replicate (i1 - i0) c ≠ List.replicate size ch) :=
      fun hcon => hcon.2 h4
    have hval :
        isFenceLine line (List.replicate size ch) =
          (if i4 ≥ line.length ∨ byteAt line i4 ≠ nlB then
            if i4 = line.length then (i4, List.replicate (i1 - i0) c, [])
            else (0, [], [])
          else (i4 + 1, List.replicate (i1 - i0) c, [])) := by
      simp only [isFenceLine]
      rw [← hi0def, ← hcdef, ← hi1def, ← hi4def, if_neg h1, if_neg h2,
        if_neg (show ¬(i1 - i0 < 3) from by omega), if_neg hneq,
        if_neg (by simpa using hmne)]
    -- collect the shared facts
    have hi0le : i0 ≤ 3 := by
      have := skipCharN_le_add line 0 spB 3; omega
    have hgei1 : i0 ≤ i1 := by
      rw [hi1def]; exact skipChar_ge line i0 c
    have hge4 : i1 ≤ i4 := by
      rw [hi4def]; exact skipChar_ge line i1 spB
    have hspec : byteAt line i4 = nlB ∨ i4 = line.length := by
      by_cases h5 : i4 ≥ line.length ∨ byteAt line i4 ≠ nlB
      · rw [if_pos h5] at hval
        by_cases h6 : i4 = line.length
        · right; exact h6
        · rw [if_neg h6] at hval
          exact absurd (by rw [hval] : (isFenceLine line (List.replicate size ch)).1 = 0)
            hne
      · push_neg at h5
        left; exact h5.2
    refine ⟨i0, i4 - i1, hi0le, ?_, ?_, ?_, ?_, ?_⟩
    · intro m hm
      exact skipCharN_run line spB 3 0 m (Nat.zero_le m) hm
    · intro m hm
      rw [← hcch]
      exact skipChar_run line i0 c (i0 + m) (by omega)
        (by rw [← hi1def]; omega)
    · rw [← hcch, show i0 + size = i1 from by omega]
      rcases skipChar_stop line i0 c with hstop | hstop
      · rw [← hi1def] at hstop
        rw [byteAt, List.getD_eq_default]
        · rw [← hcch] at hch0; exact fun hc0 => hch0 hc0.symm
        · omega
      · rw [← hi1def] at hstop; exact hstop
    · intro m hm
      rw [show i0 + size + m = i1 + m from by omega]
      exact skipChar_run line i1 spB (i1 + m) (by omega) (by rw [← hi4def]; omega)
    · rw [show i0 + size + (i4 - i1) = i4 from by omega]
      rcases hspec with h | h
      · right; exact h
      · left; omega
  · intro ⟨k, t, hk3, hksp, hrun, hstop, htsp, hend⟩
    have hkend : k + size ≤ line.length := by
      have : byteAt line (k + (size - 1)) = ch := hrun (size - 1) (by omega)
      have hin := byteAt_ne_zero_lt line (k + (size - 1)) (by rw [this]; exact hch0)
      omega
    have hi0 : skipCharN line 0 spB 3 = k := by
      have := skipCharN_stops line spB 3 0 k hk3
        (fun m hm => by simpa using hksp m hm) (by simpa using hkend.trans_lt' (by omega))
        (by
          simp only [Nat.zero_add]
          have h0 : byteAt line k = ch := by simpa using hrun 0 (by omega)
          rw [h0]
          exact hchsp)
      simpa using this
    have hc : byteAt line k = ch := hrun 0 (by omega)
    have htend : k + size + t ≤ line.length := by
      rcases hend with h | h
      · omega
      · have := byteAt_ne_zero_lt line (k + size + t) (by rw [h]; simp [nlB])
        omega
    have hi1 : skipChar line k ch = k + size :=
      skipChar_stops line ch size k hrun hstop hkend
    have hi4 : skipChar line (k + size) spB = k + size + t := by
      apply skipChar_stops line spB t (k + size) htsp
      · rcases hend with h | h
        · rw [byteAt, List.getD_eq_default]
          · simp [spB]
          · omega
        · rw [h]; simp [nlB, spB]
      · exact htend
    simp only [isFenceLine]
    rw [hi0]
    rw [if_neg (by omega)]
    rw [hc]
    rw [if_neg (by push_neg; intro h1; rcases hch with h | h <;> omega)]
    rw [hi1]
    rw [if_neg (by omega)]
    rw [show k + size - k = size from by omega]
    rw [if_neg (by
      push_neg
      intro _
      rfl)]
    rw [if_neg (by simpa using hmne)]
    rw [hi4]
    rcases hend with hcase | hcase
    · rw [if_pos (by left; omega)]
      rw [if_pos (by omega)]
      simp
      omega
    · by_cases hlt : k + size + t < line.length
      · rw [if_neg (by push_neg; exact ⟨by omega, by rw [hcase]⟩)]
        simp
      · have hle : k + size + t = line.length := by
          have := byteAt_ne_zero_lt line (k + size + t) (by rw [hcase]; simp [nlB])
          omega
        rw [if_pos (by left; omega)]
        rw [if_pos (by omega)]
        simp
        omega

/-- Start offset of the following line. -/
def nextLine (data : List Nat) (i : Nat) : Nat := skipUntilChar data i nlB + 1

/-- Offsets reachable from a line start by stepping over whole lines, exactly
the offsets the fenced-code loop visits. -/
inductive ReachLine (data : List Nat) : Nat → Nat → Prop
  | refl (i : Nat) : ReachLine data i i
  | step (i j : Nat) : ReachLine data (nextLine data i) j → ReachLine data i j

/-- Reachable offsets never decrease. -/
theorem ReachLine_le (data : List Nat) (i j : Nat) (h : ReachLine data i j) : i ≤ j := by
  induction h with
  | refl i => exact Nat.le_refl i
  | step i j _ ih =>
    have := skipUntilChar_ge data i nlB
    simp only [nextLine] at ih
    omega

/-- The fenced-code loop succeeds exactly when a line reachable from the
start carries a closing fence for the opening marker. -/
theorem fencedLoopEnd_ne_iff (data marker : List Nat) (beg : Nat) :
    fencedLoopEnd data marker beg ≠ 0 ↔
      ∃ j, ReachLine data beg j ∧ (isFenceLine (data.drop j) marker).1 ≠ 0 := by
  constructor
  · intro hne
    rw [fencedLoopEnd_eq] at hne
    rcases hfl : isFenceLine (data.drop beg) marker with ⟨fe, mk, sy⟩
    rw [hfl] at hne
    dsimp only at hne
    by_cases hfe : fe ≠ 0
    · exact ⟨beg, ReachLine.refl beg, by rw [hfl]; exact hfe⟩
    · rw [if_neg hfe] at hne
      split at hne
      next => exact absurd rfl hne
      next he =>
        obtain ⟨j, hreach, hj⟩ :=
          (fencedLoopEnd_ne_iff data marker (skipUntilChar data beg nlB + 1)).mp hne
        exact ⟨j, ReachLine.step beg j hreach, hj⟩
  · intro ⟨j, hreach, hj⟩
    induction hreach with
    | refl i =>
      rw [fencedLoopEnd_eq]
      rcases hfl : isFenceLine (data.drop i) marker with ⟨fe, mk, sy⟩
      rw [hfl] at hj
      dsimp only at hj ⊢
      rw [if_pos hj]
      omega
    | step i j hreach ih =>
      rw [fencedLoopEnd_eq]
      rcases hfl : isFenceLine (data.drop i) marker with ⟨fe, mk, sy⟩
      dsimp only
      by_cases hfe : fe ≠ 0
      · rw [if_pos hfe]
        omega
      · rw [if_neg hfe]
        have hjne : (isFenceLine (data.drop j) marker).1 ≠ 0 := hj
        have hjlt : j < data.length := by
          by_contra hge
          rw [List.drop_eq_nil_of_le (by omega), isFenceLine_nil] at hjne
          exact hjne rfl
        have hle := ReachLine_le data (nextLine data i) j hreach
        simp only [nextLine] at hle
        rw [if_neg (by omega)]
        exact ih hj
termination_by data.length - beg
decreasing_by
  have := skipUntilChar_ge data beg nlB
  have hlt : skipUntilChar data beg nlB + 1 < data.length := by omega
  omega

/-- On an input whose first line opens a fence, fencedCodeBlock runs the
line loop with the opening marker. -/
theorem fencedCodeBlockLen_open (data : List Nat) (beg : Nat) (marker syn : List Nat)
    (hopen : isFenceLine data [] = (beg, marker, syn)) (hbeg : beg ≠ 0)
    (hlt : beg < data.length) :
    fencedCodeBlockLen data = fencedLoopEnd data marker beg := by
  unfold fencedCodeBlockLen
  rw [hopen]
  dsimp only
  rw [if_neg (by push_neg; exact ⟨hbeg, by omega⟩)]

/-- CLAIM C1 (amended): on an input whose first line opens a fence with
character ch and run length size, the fenced code block is recognized iff
some later line is a closing fence using the same character and EXACTLY the
same run length; when no such closing fence occurs before end of input, 0
bytes are consumed. -/
theorem c1_fenced_recognition (data : List Nat) (beg size ch : Nat) (syn : List Nat)
    (hopen : isFenceLine data [] = (beg, List.replicate size ch, syn))
    (hbeg : beg ≠ 0) (hlt : beg < data.length)
    (hsz : 3 ≤ size) (hch : ch = 96 ∨ ch = 126) :
    (fencedCodeBlockLen data ≠ 0 ↔
      ∃ j, ReachLine data beg j ∧ specCloseFenceExact (data.drop j) ch size) ∧
    ((¬∃ j, ReachLine data beg j ∧ specCloseFenceExact (data.drop j) ch size) →
      fencedCodeBlockLen data = 0) := by
  have hiff : fencedCodeBlockLen data ≠ 0 ↔
      ∃ j, ReachLine data beg j ∧ specCloseFenceExact (data.drop j) ch size := by
    rw [fencedCodeBlockLen_open data beg (List.replicate size ch) syn hopen hbeg hlt]
    rw [fencedLoopEnd_ne_iff]
    apply exists_congr
    intro j
    apply and_congr_right
    intro _
    exact isFenceLine_close_iff (data.drop j) ch size hch hsz
  refine ⟨hiff, fun hnone => ?_⟩
  by_contra hne
  exact hnone (hiff.mp hne)

/-- Witness for the amended C1 at a concrete input: a three-backtick opener
closed by a three-backtick closer is recognized, and the theorem recovers the
closing line. -/
theorem c1_witness :
    ∃ j, ReachLine (str2b "```\na\n```\n") 4 j ∧
      specCloseFenceExact (List.drop j (str2b "```\na\n```\n")) 96 3 :=
  (c1_fenced_recognition (str2b "```\na\n```\n") 4 3 96 []
    (by decide) (by decide) (by decide) (by decide) (Or.inl rfl)).1.mp (by decide)

/-- CLAIM C1 (counterexample): an opener of three backticks followed by a
later line of five backticks — a closing fence with the same character and a
run length greater than or equal to the opener, as the claim demands — is
NOT recognized: fencedCodeBlock consumes 0 bytes because the closing marker
must match exactly. -/
theorem c1_counterexample :
    (isFenceLine (str2b "```\na\n`````\n") []).1 = 4 ∧
    (isFenceLine (str2b "```\na\n`````\n") []).2.1 = List.replicate 3 96 ∧
    ReachLine (str2b "```\na\n`````\n") 4 6 ∧
    specCloseFenceGE (List.drop 6 (str2b "```\na\n`````\n")) 96 3 ∧
    fencedCodeBlockLen (str2b "```\na\n`````\n") = 0 := by
  refine ⟨by decide, by decide, ?_, ?_, by decide⟩
  · apply ReachLine.step 4 6
    have h : nextLine (str2b "```\na\n`````\n") 4 = 6 := by decide
    rw [h]
    exact ReachLine.refl 6
  · refine ⟨5, by omega, 0, 0, by omega, by omega, ?_, by decide, by omega, ?_⟩
    · intro m hm
      interval_cases m <;> decide
    · right; decide

/-! ### Document tree model and parser context

The ast package and the parser context (parser.go) are not part of src/;
the node variants, list flags and tree shape are modelled from the data
model of the specification, and the tree is built functionally: every
recognizer returns the nodes it creates (children attached when the
container is finalized), which realizes the spec's one-way data flow. -/

/-- Byte strings of the parser. -/
abbrev Bytes := List Nat

/-- Modelled from the spec: the ast.ListType bit flags, one Bool per bit. -/
structure ListTy where
  ordered : Bool := false
  definition : Bool := false
  term : Bool := false
  beginList : Bool := false
  endList : Bool := false
  containsBlock : Bool := false
deriving DecidableEq, Repr

/-- Modelled from the spec: the document tree node variants with their
essential attributes. -/
inductive Node where
  | heading (level : Nat) (headingID : Bytes) (isSpecial isTitleblock : Bool)
      (content : Bytes)
  | paragraph (content : Bytes)
  | listNode (flags : ListTy) (tight : Bool) (start : Nat) (delim : Nat)
      (children : List Node)
  | listItem (flags : ListTy) (bullet : Nat) (delim : Nat) (children : List Node)
  | blockQuote (children : List Node)
  | codeBlock (isFenced : Bool) (info : Bytes) (literal : Bytes)
  | horizontalRule (literal : Bytes)
  | htmlBlock (literal : Bytes)
  | mathBlock (literal : Bytes)
  | captionFigure (headingID : Bytes) (children : List Node)
  | caption (content : Bytes)
  | tableNode
  | asideNode
  | documentMatter
  | custom (tag : Nat) (children : List Node)

mutual
/-- Translation of endsWithBlankLine: the Go loop walks to the last child of
each List/ListItem; with the lastLineBlank test commented out in the source
it can only ever return false. -/
def endsWithBlankLine : Node → Bool
  | .listNode _ _ _ _ children => ewblLast children
  | .listItem _ _ _ children => ewblLast children
  | _ => false

/-- Descend to the last child (ast.GetLastChild) and continue the walk; an
empty child list is the nil block, for which the loop returns false. -/
def ewblLast : List Node → Bool
  | [] => false
  | [c] => endsWithBlankLine c
  | _ :: rest => ewblLast rest
end

mutual
/-- endsWithBlankLine is constantly false in this source tree. -/
theorem endsWithBlankLine_false : ∀ (b : Node), endsWithBlankLine b = false
  | .listNode _ _ _ _ children => ewblLast_false children
  | .listItem _ _ _ children => ewblLast_false children
  | .heading _ _ _ _ _ => rfl
  | .paragraph _ => rfl
  | .blockQuote _ => rfl
  | .codeBlock _ _ _ => rfl
  | .horizontalRule _ => rfl
  | .htmlBlock _ => rfl
  | .mathBlock _ => rfl
  | .captionFigure _ _ => rfl
  | .caption _ => rfl
  | .tableNode => rfl
  | .asideNode => rfl
  | .documentMatter => rfl
  | .custom _ _ => rfl

/-- The last-child walk is constantly false as well. -/
theorem ewblLast_false : ∀ (l : List Node), ewblLast l = false
  | [] => rfl
  | [c] => endsWithBlankLine_false c
  | _ :: b :: rest => ewblLast_false (b :: rest)
end

/-- Inner loop of finalizeList: reports whether some non-terminal sub-item
ends with a blank line. -/
def fzInner (subItems : List Node) (lastSub : Nat) (j : Nat) (isLast : Bool) : Bool :=
  match subItems with
  | [] => false
  | s :: rest =>
    if (¬isLast ∨ j ≠ lastSub) ∧ endsWithBlankLine s then true
    else fzInner rest lastSub (j + 1) isLast

/-- Outer loop of finalizeList over the items. -/
def fzOuter (items allItems : List Node) (lastIdx idx : Nat) (tight : Bool) : Bool :=
  match items with
  | [] => tight
  | item :: rest =>
    if idx ≠ lastIdx ∧ endsWithBlankLine item then false
    else
      let tight1 :=
        if fzInner allItems (allItems.length - 1) 0 (idx = lastIdx) then false
        else tight
      fzOuter rest allItems lastIdx (idx + 1) tight1

/-- Translation of finalizeList, as a function from the inspected children
and the current Tight value to the new Tight value.  The source inspects
list.Parent.GetChildren(); because endsWithBlankLine is constantly false the
result does not depend on the first argument at all (finalizeList_id), so the
caller may pass the gathered items. -/
def finalizeList (parentChildren : List Node) (tight : Bool) : Bool :=
  fzOuter parentChildren parentChildren (parentChildren.length - 1) 0 tight

/-- fzInner never fires. -/
theorem fzInner_false (subItems : List Node) (lastSub j : Nat) (isLast : Bool) :
    fzInner subItems lastSub j isLast = false := by
  induction subItems generalizing j with
  | nil => rfl
  | cons s rest ih =>
    rw [fzInner]
    rw [if_neg (by rw [endsWithBlankLine_false]; simp)]
    exact ih (j + 1)

/-- fzOuter preserves the Tight flag. -/
theorem fzOuter_id (items allItems : List Node) (lastIdx idx : Nat) (tight : Bool) :
    fzOuter items allItems lastIdx idx tight = tight := by
  induction items generalizing idx with
  | nil => rfl
  | cons item rest ih =>
    rw [fzOuter]
    rw [if_neg (by rw [endsWithBlankLine_false]; simp)]
    rw [fzInner_false]
    exact ih (idx + 1)

/-- The finalization pass never changes the Tight flag. -/
theorem finalizeList_id (parentChildren : List Node) (tight : Bool) :
    finalizeList parentChildren tight = tight :=
  fzOuter_id parentChildren parentChildren (parentChildren.length - 1) 0 tight

/-- Extension flag set (a bitmask in the source). -/
structure Exts where
  tables : Bool := false
  fencedCode : Bool := false
  spaceHeadings : Bool := false
  headingIDs : Bool := false
  autoHeadingIDs : Bool := false
  orderedListStart : Bool := false
  definitionLists : Bool := false
  laxHTMLBlocks : Bool := false
  titleblock : Bool := false
  mathJax : Bool := false
  mmark : Bool := false
  attributes : Bool := false
  includes : Bool := false
  noEmptyLineBeforeBlock : Bool := false
  tabSizeEight : Bool := false
deriving DecidableEq, Repr

/-- Parser context.  The mutable scalar state (nesting counter, include
stack, auto-id registry) is carried directly; the collaborators whose
implementations are not under src/ (attribute parsing, includes, captions,
tables, figures, asides, document matter, reference definitions, and the
caller-supplied hook) are modelled from the spec as function-valued fields
that report the bytes they consume. -/
structure Parser where
  exts : Exts
  maxNesting : Nat
  nesting : Nat
  includeStack : List Bytes
  autoHeadings : List Node
  attributeFn : Bytes → Nat
  isIncludeFn : Bytes → Bytes × Bytes × Nat
  isCodeIncludeFn : Bytes → Bytes × Bytes × Nat
  readIncludeFn : Bytes → Bytes → Bytes → Bytes
  readCodeIncludeFn : Bytes → Bytes → Bytes → Bytes
  captionFn : Bytes → Bytes → Bytes × Bytes × Nat
  parserHook : Option (Bytes → Option Nat × Option Bytes × Nat)
  tableFn : Bytes → Nat
  tableHeaderFn : Bytes → Nat
  figureFn : Bytes → Nat
  asidePrefixFn : Bytes → Nat
  asideFn : Bytes → Nat
  docMatterFn : Bytes → Nat
  isRefFn : Bytes → Nat

/-! ### A generic combinator for the scanning loops

Every remaining Go loop is expressed as a step function driven by this
combinator; the fuel is hidden behind a proof that the step decreases a
measure, so the loop functions stay kernel-computable and come with a
Go-shaped unfolding equation for free. -/

/-- Fuelled iteration of a step function; inl is the loop exit. -/
def loopGo {α β : Type} (step : α → β ⊕ α) : Nat → α → Option β
  | 0, _ => none
  | f + 1, a =>
    match step a with
    | .inl b => some b
    | .inr a2 => loopGo step f a2

/-- More fuel preserves a successful run. -/
theorem loopGo_mono {α β : Type} (step : α → β ⊕ α) :
    ∀ (f : Nat) (a : α) (b : β), loopGo step f a = some b →
      loopGo step (f + 1) a = some b := by
  intro f
  induction f with
  | zero => intro a b h; simp [loopGo] at h
  | succ g ih =>
    intro a b h
    rw [loopGo] at h
    rw [loopGo]
    cases hs : step a with
    | inl b2 => rw [hs] at h; exact h
    | inr a2 =>
      rw [hs] at h
      exact ih a2 b h

/-- Fuel weakening for successful runs. -/
theorem loopGo_le {α β : Type} (step : α → β ⊕ α) (f g : Nat) (a : α) (b : β)
    (hfg : f ≤ g) (h : loopGo step f a = some b) : loopGo step g a = some b := by
  induction g with
  | zero =>
    have : f = 0 := by omega
    subst this; exact h
  | succ g2 ih =>
    rcases Nat.eq_or_lt_of_le hfg with rfl | hlt
    · exact h
    · exact loopGo_mono step g2 a b (ih (by omega))

/-- With fuel above the measure, the loop completes. -/
theorem loopGo_adequate {α β : Type} (step : α → β ⊕ α) (msr : α → Nat)
    (hdec : ∀ a a2, step a = .inr a2 → msr a2 < msr a) :
    ∀ (n : Nat) (a : α), msr a ≤ n → ∃ b, loopGo step (n + 1) a = some b := by
  intro n
  induction n with
  | zero =>
    intro a ha
    rw [loopGo]
    cases hs : step a with
    | inl b => exact ⟨b, rfl⟩
    | inr a2 =>
      have := hdec a a2 hs
      omega
  | succ g ih =>
    intro a ha
    rw [loopGo]
    cases hs : step a with
    | inl b => exact ⟨b, rfl⟩
    | inr a2 =>
      have := hdec a a2 hs
      exact ih a2 (by omega)

/-- Total runner for a measure-decreasing step function. -/
def loopRun {α β : Type} (step : α → β ⊕ α) (msr : α → Nat)
    (hdec : ∀ a a2, step a = .inr a2 → msr a2 < msr a) (a : α) : β :=
  Option.get (loopGo step (msr a + 1) a)
    (by
      obtain ⟨b, hb⟩ := loopGo_adequate step msr hdec (msr a) a (le_refl _)
      rw [hb]; rfl)

/-- Successful runs at any fuel agree with loopRun. -/
theorem loopRun_of_loopGo {α β : Type} (step : α → β ⊕ α) (msr : α → Nat)
    (hdec : ∀ a a2, step a = .inr a2 → msr a2 < msr a) (f : Nat) (a : α) (b : β)
    (h : loopGo step f a = some b) : loopRun step msr hdec a = b := by
  unfold loopRun
  obtain ⟨b2, hb2⟩ := loopGo_adequate step msr hdec (msr a) a (le_refl _)
  rcases Nat.le_total f (msr a + 1) with hle | hle
  · have := loopGo_le step f (msr a + 1) a b hle h
    rw [this] at hb2
    injection hb2 with hbb
    subst hbb
    simp [this]
  · have := loopGo_le step (msr a + 1) f a b2 hle hb2
    rw [this] at h
    injection h with hbb
    subst hbb
    simp [hb2]

/-- Go-shaped unfolding of loopRun. -/
theorem loopRun_eq {α β : Type} (step : α → β ⊕ α) (msr : α → Nat)
    (hdec : ∀ a a2, step a = .inr a2 → msr a2 < msr a) (a : α) :
    loopRun step msr hdec a =
      (match step a with
      | .inl b => b
      | .inr a2 => loopRun step msr hdec a2) := by
  cases hs : step a with
  | inl b =>
    show loopRun step msr hdec a = b
    apply loopRun_of_loopGo step msr hdec 1
    simp only [loopGo, hs]
  | inr a2 =>
    have hb2 : loopGo step (msr a2 + 1) a2 = some (loopRun step msr hdec a2) :=
      (Option.some_get _).symm
    show loopRun step msr hdec a = loopRun step msr hdec a2
    apply loopRun_of_loopGo step msr hdec (msr a2 + 2)
    simp only [loopGo, hs]
    exact hb2

/-- A parser with the given extensions and maximum nesting, all spec-modelled
collaborators inert (they consume nothing), and no hook. -/
def mkParser (e : Exts) (maxN : Nat) : Parser where
  exts := e
  maxNesting := maxN
  nesting := 0
  includeStack := []
  autoHeadings := []
  attributeFn := fun _ => 0
  isIncludeFn := fun _ => ([], [], 0)
  isCodeIncludeFn := fun _ => ([], [], 0)
  readIncludeFn := fun _ _ _ => []
  readCodeIncludeFn := fun _ _ _ => []
  captionFn := fun _ _ => ([], [], 0)
  parserHook := none
  tableFn := fun _ => 0
  tableHeaderFn := fun _ => 0
  figureFn := fun _ => 0
  asidePrefixFn := fun _ => 0
  asideFn := fun _ => 0
  docMatterFn := fun _ => 0
  isRefFn := fun _ => 0

/-! ### Remaining scanning helpers -/

/-- Scan to just past the end of the current line: advance i while the
previous byte is not a newline (the listItem line scan). -/
def scanNl (data : Bytes) (i : Nat) : Nat :=
  loopRun
    (fun j => if j < data.length ∧ byteAt data (j - 1) ≠ nlB then .inr (j + 1) else .inl j)
    (fun j => data.length + 1 - j)
    (by
      intro a a2 h
      dsimp only at h ⊢
      split at h
      next hc =>
        injection h with h2
        omega
      next hc => cases h)
    i

/-- Go-shaped unfolding of scanNl. -/
theorem scanNl_eq (data : Bytes) (i : Nat) :
    scanNl data i =
      if i < data.length ∧ byteAt data (i - 1) ≠ nlB then scanNl data (i + 1) else i := by
  unfold scanNl
  rw [loopRun_eq]
  by_cases h : i < data.length ∧ byteAt data (i - 1) ≠ nlB
  · rw [if_pos h, if_pos h]
  · rw [if_neg h, if_neg h]

/-- scanNl never moves backwards. -/
theorem scanNl_ge (data : Bytes) (i : Nat) : i ≤ scanNl data i := by
  rw [scanNl_eq]
  split
  next h => exact Nat.le_trans (Nat.le_succ i) (scanNl_ge data (i + 1))
  next => exact Nat.le_refl i
termination_by data.length - i
decreasing_by omega

/-- scanNl stays within the buffer when starting inside. -/
theorem scanNl_le (data : Bytes) (i : Nat) : scanNl data i ≤ max i data.length := by
  rw [scanNl_eq]
  split
  next h =>
    have := scanNl_le data (i + 1)
    omega
  next => exact Nat.le_max_left i _
termination_by data.length - i
decreasing_by omega

/-- Generic until-one-of-two-bytes scan (used for hr tags). -/
def scanUntil2 (data : Bytes) (c1 c2 : Nat) (i : Nat) : Nat :=
  loopRun
    (fun j => if j < data.length ∧ byteAt data j ≠ c1 ∧ byteAt data j ≠ c2 then
      .inr (j + 1) else .inl j)
    (fun j => data.length + 1 - j)
    (by
      intro a a2 h
      dsimp only at h ⊢
      split at h
      next hc =>
        injection h with h2
        omega
      next hc => cases h)
    i

/-- Scan for the next closing-tag start: advance i until data[i-1]=60 and
data[i]=47 (the inner loop of the html block search). -/
def htmlScanClose (data : Bytes) (i : Nat) : Nat :=
  loopRun
    (fun j => if j < data.length ∧ ¬(byteAt data (j - 1) = 60 ∧ byteAt data j = 47) then
      .inr (j + 1) else .inl j)
    (fun j => data.length + 1 - j)
    (by
      intro a a2 h
      dsimp only at h ⊢
      split at h
      next hc =>
        injection h with h2
        omega
      next hc => cases h)
    i

/-- Heading-id opening scan: advance j while j < e-1 and no brace-hash pair. -/
def hidJ (data : Bytes) (j e : Nat) : Nat :=
  loopRun
    (fun a => if a < e - 1 ∧ ¬(byteAt data a = 123 ∧ byteAt data (a + 1) = 35) then
      .inr (a + 1) else .inl a)
    (fun a => e + 1 - a)
    (by
      intro a a2 h
      dsimp only at h ⊢
      split at h
      next hc =>
        injection h with h2
        omega
      next hc => cases h)
    j

/-- Heading-id closing scan: advance k while k < e and no closing brace. -/
def hidK (data : Bytes) (k e : Nat) : Nat :=
  loopRun
    (fun a => if a < e ∧ byteAt data a ≠ 125 then .inr (a + 1) else .inl a)
    (fun a => e + 1 - a)
    (by
      intro a a2 h
      dsimp only at h ⊢
      split at h
      next hc =>
        injection h with h2
        omega
      next hc => cases h)
    k

/-- Newline-run scan of the definition-list lookahead: advance while the byte
is a newline and next < len-1. -/
def nlRunScan (data : Bytes) (i : Nat) : Nat :=
  loopRun
    (fun a => if a < data.length - 1 ∧ byteAt data a = nlB then .inr (a + 1) else .inl a)
    (fun a => data.length + 1 - a)
    (by
      intro a a2 h
      dsimp only at h ⊢
      split at h
      next hc =>
        injection h with h2
        omega
      next hc => cases h)
    i

/-- Indentation count of a gathered line: up to four leading spaces before
position i. -/
def indentCntGo (data : Bytes) (line i : Nat) : Nat → Nat → Nat
  | n, fuel + 1 =>
    if n < 4 ∧ line + n < i ∧ byteAt data (line + n) = spB then
      indentCntGo data line i (n + 1) fuel
    else n
  | n, 0 => n

/-- Indentation count (spaces case of the listItem indent computation). -/
def indentCnt (data : Bytes) (line i : Nat) : Nat := indentCntGo data line i 0 4

/-- Trailing-space trim bounded below by beg (renderParagraph, underlined
headings). -/
def trimSpGT (data : Bytes) (beg : Nat) : Nat → Nat
  | 0 => 0
  | e + 1 => if beg < e + 1 ∧ byteAt data e = spB then trimSpGT data beg e else e + 1

/-- Modelled from the spec: isBackslashEscaped (helpers file not under src/):
a position is escaped when preceded by an odd number of backslashes. -/
def bsCount (data : Bytes) : Nat → Nat
  | 0 => 0
  | i + 1 => if byteAt data i = 92 then bsCount data i + 1 else 0

/-- Backslash-escape test used when trimming trailing hashes. -/
def isBackslashEscaped (data : Bytes) (i : Nat) : Bool := bsCount data i % 2 = 1

/-- Trailing-hash trim of a heading line, honoring backslash escapes. -/
def trimHashEnd (data : Bytes) : Nat → Nat
  | 0 => 0
  | e + 1 =>
    if byteAt data e = 35 then
      if isBackslashEscaped data e then e + 1 else trimHashEnd data e
    else e + 1

/-- Forward space skip bounded above (underlined-heading trimming). -/
def skipSpLT (data : Bytes) (bound i : Nat) : Nat :=
  loopRun
    (fun a => if a < bound ∧ byteAt data a = spB then .inr (a + 1) else .inl a)
    (fun a => bound + 1 - a)
    (by
      intro a a2 h
      dsimp only at h ⊢
      split at h
      next hc =>
        injection h with h2
        omega
      next hc => cases h)
    i

/-- Escapable punctuation set of the source regular expression. -/
def isEscapableB (c : Nat) : Bool :=
  c = 33 || c = 34 || c = 35 || c = 36 || c = 37 || c = 38 || c = 39 || c = 40 ||
  c = 41 || c = 42 || c = 43 || c = 44 || c = 46 || c = 47 || c = 58 || c = 59 ||
  c = 60 || c = 61 || c = 62 || c = 63 || c = 64 || c = 91 || c = 92 || c = 93 ||
  c = 94 || c = 95 || c = 96 || c = 123 || c = 124 || c = 125 || c = 126 || c = 45

/-- Backslash-unescape pass of unescapeString.  Go also decodes HTML
entities through the standard library there; entities are modelled as left
unchanged (no claim depends on entity decoding). -/
def unescGo : Bytes → Bytes
  | [] => []
  | 92 :: c :: rest => if isEscapableB c then c :: unescGo rest else 92 :: unescGo (c :: rest)
  | b :: rest => b :: unescGo rest

/-- Translation of unescapeString: the guard regular expression of the source
matches only an ampersand, so the rewrite runs only when one is present. -/
def unescapeString (str : Bytes) : Bytes :=
  if str.contains 38 then unescGo str else str

/-- Both-ends trim of a single byte (bytes.Trim with a one-byte cutset). -/
def trimChar (l : Bytes) (c : Nat) : Bytes :=
  ((l.dropWhile (fun b => b = c)).reverse.dropWhile (fun b => b = c)).reverse

/-- Both-ends trim over a cutset (bytes.Trim). -/
def trimSet (l : Bytes) (s : Bytes) : Bytes :=
  ((l.dropWhile (fun b => s.contains b)).reverse.dropWhile (fun b => s.contains b)).reverse

/-- A loopRun invariant principle: a property preserved by every continue
step and established at every stop step holds of the result. -/
theorem loopRun_inv {α β : Type} (step : α → β ⊕ α) (msr : α → Nat)
    (hdec : ∀ a a2, step a = .inr a2 → msr a2 < msr a)
    (P : α → Prop) (Q : β → Prop)
    (hstepr : ∀ a a2, P a → step a = .inr a2 → P a2)
    (hstepl : ∀ a b, P a → step a = .inl b → Q b)
    (a : α) (ha : P a) : Q (loopRun step msr hdec a) := by
  rw [loopRun_eq]
  cases hs : step a with
  | inl b => exact hstepl a b ha hs
  | inr a2 => exact loopRun_inv step msr hdec P Q hstepr hstepl a2 (hstepr a a2 ha hs)
termination_by msr a
decreasing_by exact hdec a a2 hs

/-- Cursor loops never move the cursor backwards. -/
theorem loopRun_ge (step : Nat → Nat ⊕ Nat) (msr : Nat → Nat)
    (hdec : ∀ a a2, step a = .inr a2 → msr a2 < msr a)
    (hinr : ∀ a a2, step a = .inr a2 → a ≤ a2)
    (hinl : ∀ a b, step a = .inl b → a ≤ b)
    (a0 : Nat) : a0 ≤ loopRun step msr hdec a0 :=
  loopRun_inv step msr hdec (fun a => a0 ≤ a) (fun b => a0 ≤ b)
    (fun a a2 ha hs => Nat.le_trans ha (hinr a a2 hs))
    (fun a b ha hs => Nat.le_trans ha (hinl a b hs))
    a0 (Nat.le_refl a0)

/-- Advancing to just past the next newline moves strictly forward while
inside the buffer (the dispatcher line loops all use this shape). -/
theorem nextNl_lt (data : Bytes) (i : Nat) (h : i < data.length) :
    i < skipCharN data (skipUntilChar data i nlB) nlB 1 := by
  have hge := skipUntilChar_ge data i nlB
  have hsk : skipCharN data (skipUntilChar data i nlB) nlB 1 =
      if skipUntilChar data i nlB < data.length ∧
          byteAt data (skipUntilChar data i nlB) = nlB
      then skipUntilChar data i nlB + 1 else skipUntilChar data i nlB := rfl
  rw [hsk]
  split
  next hc => omega
  next hc =>
    rcases skipUntilChar_stop data i nlB with hstop | hstop
    · omega
    · have hnl : ¬(skipUntilChar data i nlB < data.length) := fun hl => hc ⟨hl, hstop⟩
      omega

/-! ### Heading recognizers -/

/-- Translation of isPrefixHeading. -/
def isPrefixHeading (exts : Exts) (data : Bytes) : Bool :=
  if data.length > 0 ∧ byteAt data 0 ≠ 35 then false
  else if exts.spaceHeadings then
    let level := skipCharN data 0 35 6
    if level = data.length ∨ byteAt data level ≠ spB then false else true
  else true

/-- The heading-id extraction shared by prefixHeading and
prefixSpecialHeading: given the content start i and line end e0 it returns
(id, trimmed end, skip). -/
def headingIDPass (exts : Exts) (data : Bytes) (i e0 : Nat) : Bytes × Nat × Nat :=
  if exts.headingIDs then
    let j := hidJ data i e0
    let k := hidK data (j + 1) e0
    if j < e0 ∧ k < e0 then
      (slice data (j + 2) k, backChar data j spB, k + 1)
    else ([], e0, e0)
  else ([], e0, e0)

/-- Translation of prefixHeading, returning (consumed, nodes).  The
auto-generated-id registry (allHeadingsWithAutoID) is not tracked. -/
def prefixHeading (exts : Exts) (data : Bytes) : Nat × List Node :=
  let level := skipCharN data 0 35 6
  let i := skipChar data level spB
  let e0 := skipUntilChar data i nlB
  let r := headingIDPass exts data i e0
  let e1 := trimHashEnd data r.2.1
  let e2 := backChar data e1 spB
  if e2 > i then
    let hid := if r.1 = [] ∧ exts.autoHeadingIDs then
        sanitizeHeadingID asciiRunes (slice data i e2)
      else r.1
    (r.2.2, [Node.heading level hid false false (slice data i e2)])
  else (r.2.2, [])

/-- Translation of isPrefixSpecialHeading.  The first guard of the source,
p.extensions|Mmark == 0, bitwise-ORs the Mmark bit in before comparing with
zero and therefore never fires; it is omitted here as the constant-false test
it is. -/
def isPrefixSpecialHeading (exts : Exts) (data : Bytes) : Bool :=
  if data.length < 4 then false
  else if byteAt data 0 ≠ 46 then false
  else if byteAt data 1 ≠ 35 then false
  else if byteAt data 2 = 35 then false
  else if exts.spaceHeadings then
    if byteAt data 2 ≠ spB then false else true
  else true

/-- Translation of prefixSpecialHeading (level is always 1, IsSpecial set). -/
def prefixSpecialHeading (exts : Exts) (data : Bytes) : Nat × List Node :=
  let i := skipChar data 2 spB
  let e0 := skipUntilChar data i nlB
  let r := headingIDPass exts data i e0
  let e1 := trimHashEnd data r.2.1
  let e2 := backChar data e1 spB
  if e2 > i then
    let hid := if r.1 = [] ∧ exts.autoHeadingIDs then
        sanitizeHeadingID asciiRunes (slice data i e2)
      else r.1
    (r.2.2, [Node.heading 1 hid true false (slice data i e2)])
  else (r.2.2, [])

/-- Translation of isUnderlinedHeading: 1 for an = underline, 2 for a -
underline, 0 otherwise. -/
def isUnderlinedHeading (data : Bytes) : Nat :=
  if byteAt data 0 = 61 then
    let i := skipChar data (skipChar data 1 61) spB
    if i < data.length ∧ byteAt data i = nlB then 1 else 0
  else if byteAt data 0 = 45 then
    let i := skipChar data (skipChar data 1 45) spB
    if i < data.length ∧ byteAt data i = nlB then 2 else 0
  else 0

/-- The "\n% " to "\n" rewrite of titleBlock (bytes.Replace). -/
def replNlPct : Bytes → Bytes
  | 10 :: 37 :: 32 :: rest => 10 :: replNlPct rest
  | b :: rest => b :: replNlPct rest
  | [] => []

/-- Translation of titleBlock, returning (consumed, nodes).  The node is
produced unconditionally after the percent guard, exactly as the source adds
its block before returning the consumed count. -/
def titleBlock (data : Bytes) : Nat × List Node :=
  if byteAt data 0 ≠ 37 then (0, [])
  else
    let splitData := data.splitOn nlB
    let i := (splitData.findIdx? (fun b => decide (b.take 1 ≠ [37]))).getD 0
    let d := List.intercalate [nlB] (splitData.take i)
    let consumed := d.length
    let d1 := if d.take 2 = [37, spB] then d.drop 2 else d
    (consumed, [Node.heading 1 [] false true (replNlPct d1)])

/-! ### HTML block recognizers -/

/-- The block-tag set of the source (note: hr is commented out there, and so
absent here as well). -/
def blockTags : List Bytes :=
  [str2b "blockquote", str2b "del", str2b "dd", str2b "div", str2b "dl",
   str2b "dt", str2b "fieldset", str2b "form", str2b "h1", str2b "h2",
   str2b "h3", str2b "h4", str2b "h5", str2b "h6", str2b "iframe",
   str2b "ins", str2b "li", str2b "math", str2b "noscript", str2b "ol",
   str2b "pre", str2b "p", str2b "script", str2b "style", str2b "table",
   str2b "ul", str2b "address", str2b "article", str2b "aside",
   str2b "canvas", str2b "details", str2b "dialog", str2b "figcaption",
   str2b "figure", str2b "footer", str2b "header", str2b "hgroup",
   str2b "main", str2b "nav", str2b "output", str2b "progress",
   str2b "section", str2b "svg", str2b "video"]

/-- Translation of htmlFindTag. -/
def htmlFindTag (data : Bytes) : Bytes × Bool :=
  let i := skipAlnum data 0
  let key := data.take i
  if blockTags.contains key then (key, true) else ([], false)

/-- Translation of htmlFindEnd. -/
def htmlFindEnd (exts : Exts) (tag : Bytes) (data : Bytes) : Nat :=
  if tag = str2b "hr" then 2
  else
    let closetag := [60, 47] ++ tag ++ [62]
    if ¬(data.take closetag.length = closetag) then 0
    else
      let i := closetag.length
      let skip := IsEmptyB (data.drop i)
      if skip = 0 then 0
      else
        let i2 := i + skip
        if i2 ≥ data.length then i2
        else if exts.laxHTMLBlocks then i2
        else
          let skip2 := IsEmptyB (data.drop i2)
          if skip2 = 0 then 0 else i2 + skip2

/-- End-of-comment scan of the inline comment recognizer. -/
def cmtScan (data : Bytes) (i : Nat) : Nat :=
  loopRun
    (fun a => if a < data.length ∧
        ¬(byteAt data (a - 2) = 45 ∧ byteAt data (a - 1) = 45 ∧ byteAt data a = 62)
      then .inr (a + 1) else .inl a)
    (fun a => data.length + 1 - a)
    (by
      intro a a2 h
      dsimp only at h ⊢
      split at h
      next hc =>
        injection h with h2
        omega
      next hc => cases h)
    i

/-- Modelled from the spec: inlineHTMLComment (the inline-pass source file is
not under src/): a lax HTML comment starts with a less-than sign, a bang and
two dashes and runs to the first dash-dash-greater marker; it is rejected when
the marker would end at or past the end of the buffer. -/
def inlineHTMLComment (data : Bytes) : Nat :=
  if data.length < 5 then 0
  else if byteAt data 0 ≠ 60 ∨ byteAt data 1 ≠ 33 ∨ byteAt data 2 ≠ 45 ∨
      byteAt data 3 ≠ 45 then 0
  else
    let i := cmtScan data 5 + 1
    if i ≥ data.length then 0 else i

/-- Translation of htmlComment, returning (consumed, nodes). -/
def htmlComment (data : Bytes) (doRender : Bool) : Nat × List Node :=
  let i := inlineHTMLComment data
  let j := IsEmptyB (data.drop i)
  if j > 0 then
    let size := i + j
    (size, if doRender then [Node.htmlBlock (data.take (backChar data size nlB))] else [])
  else (0, [])

/-- Translation of htmlHr, returning (consumed, nodes). -/
def htmlHr (data : Bytes) (doRender : Bool) : Nat × List Node :=
  if data.length < 4 then (0, [])
  else if byteAt data 0 ≠ 60 ∨ (byteAt data 1 ≠ 104 ∧ byteAt data 1 ≠ 72) ∨
      (byteAt data 2 ≠ 114 ∧ byteAt data 2 ≠ 82) then (0, [])
  else if byteAt data 3 ≠ spB ∧ byteAt data 3 ≠ 47 ∧ byteAt data 3 ≠ 62 then (0, [])
  else
    let i := scanUntil2 data 62 nlB 3
    if i < data.length ∧ byteAt data i = 62 then
      let i2 := i + 1
      let j := IsEmptyB (data.drop i2)
      if j > 0 then
        let size := i2 + j
        (size, if doRender then [Node.htmlBlock (data.take (backChar data size nlB))] else [])
      else (0, [])
    else (0, [])

/-- htmlScanClose never moves backwards. -/
theorem htmlScanClose_ge (data : Bytes) (i : Nat) : i ≤ htmlScanClose data i := by
  unfold htmlScanClose
  apply loopRun_ge
  · intro a a2 h
    try dsimp only at h
    split at h
    next hc =>
      injection h with h2
      omega
    next hc => cases h
  · intro a b h
    try dsimp only at h
    split at h
    next hc => cases h
    next hc =>
      injection h with h2
      omega

/-- The closing-tag search loop of html: starting from cursor 1, repeatedly
scan for a line-initial closing-tag start and test htmlFindEnd; returns the
end index when found. -/
def htmlOuterScan (exts : Exts) (data curtag : Bytes) : Option Nat :=
  loopRun
    (fun a =>
      if a < data.length then
        let a1 := htmlScanClose data (a + 1)
        if a1 + 2 + curtag.length ≥ data.length then .inl none
        else
          let j := htmlFindEnd exts curtag (data.drop (a1 - 1))
          if j > 0 then .inl (some (a1 + j - 1))
          else .inr a1
      else .inl none)
    (fun a => data.length + 1 - a)
    (by
      intro a a2 h
      dsimp only at h ⊢
      split at h
      next hlt =>
        split at h
        next => cases h
        next =>
          split at h
          next => cases h
          next =>
            injection h with h2
            have := htmlScanClose_ge data (a + 1)
            omega
      next => cases h)
    1

/-- Translation of html, returning (consumed, nodes): handles the comment
and hr special cases, then searches for an indented closing tag (skipped for
ins and del tags). -/
def html (exts : Exts) (data : Bytes) (doRender : Bool) : Nat × List Node :=
  if byteAt data 0 ≠ 60 then (0, [])
  else
    let ft := htmlFindTag (data.drop 1)
    if ft.2 = false then
      let hc := htmlComment data doRender
      if hc.1 > 0 then hc
      else
        let hh := htmlHr data doRender
        if hh.1 > 0 then hh else (0, [])
    else
      if ft.1 = str2b "ins" ∨ ft.1 = str2b "del" then (0, [])
      else
        match htmlOuterScan exts data ft.1 with
        | none => (0, [])
        | some i =>
          (i, if doRender then [Node.htmlBlock (data.take (backChar data i nlB))] else [])

/-- Translation of finalizeCodeBlock, phrased as the builder of the final
CodeBlock node from the gathered content. -/
def finalizeCode (isFenced : Bool) (content : Bytes) : Node :=
  if isFenced then
    let newlinePos := skipUntilChar content 0 nlB
    let firstLine := content.take newlinePos
    let rest := content.drop (newlinePos + 1)
    Node.codeBlock true (unescapeString (trimChar firstLine nlB)) rest
  else
    Node.codeBlock false [] content

/-- One-newline consumption in closed form (skipCharN with max 1). -/
theorem skipCharN1_eq (data : Bytes) (e : Nat) :
    skipCharN data e nlB 1 =
      if e < data.length ∧ byteAt data e = nlB then e + 1 else e := rfl

/-! ### Indented code blocks -/

/-- One line of the indented-code gather loop; the state is (cursor, buffer). -/
def codeStep (data : Bytes) (s : Nat × Bytes) : (Nat × Bytes) ⊕ (Nat × Bytes) :=
  if s.1 < data.length then
    let beg := s.1
    let i1 := skipCharN data (skipUntilChar data beg nlB) nlB 1
    let ln := slice data beg i1
    let blank := IsEmptyB ln > 0
    let pre := codePrefix ln
    if pre > 0 then .inr (i1, s.2 ++ (if blank then [nlB] else slice data (beg + pre) i1))
    else if ¬blank then .inl (beg, s.2)
    else .inr (i1, s.2 ++ [nlB])
  else .inl s

/-- The indented-code gather loop: (end cursor, gathered buffer). -/
def codeGather (data : Bytes) : Nat × Bytes :=
  loopRun (codeStep data) (fun s => data.length + 1 - s.1)
    (by
      intro a a2 h
      simp only [codeStep] at h
      split at h
      next hlt =>
        have hlt2 := nextNl_lt data a.1 hlt
        split at h
        next =>
          injection h with h2
          subst h2
          dsimp only
          omega
        next =>
          split at h
          next => cases h
          next =>
            injection h with h2
            subst h2
            dsimp only
            omega
      next => cases h)
    (0, [])

/-- Translation of code (indented code block), returning (consumed, nodes). -/
def code (data : Bytes) : Nat × List Node :=
  let r := codeGather data
  let eol := backChar r.2 r.2.length nlB
  (r.1, [finalizeCode false (r.2.take eol ++ [nlB])])

/-! ### Fenced code blocks with content -/

/-- One line of the fencedCodeBlock gather loop; the state is (cursor,
buffer), the left outcome is the final (consumed, buffer) or none when the
buffer ends before a closing fence. -/
def fencedStep (data marker : Bytes) (s : Nat × Bytes) :
    (Option (Nat × Bytes)) ⊕ (Nat × Bytes) :=
  let fe := (isFenceLine (data.drop s.1) marker).1
  if fe ≠ 0 then .inl (some (s.1 + fe, s.2))
  else
    let e := skipUntilChar data s.1 nlB + 1
    if e ≥ data.length then .inl none
    else .inr (e, s.2 ++ slice data s.1 e)

/-- The fenced-code gather loop. -/
def fencedGather (data marker : Bytes) (beg : Nat) : Option (Nat × Bytes) :=
  loopRun (fencedStep data marker) (fun s => data.length - s.1)
    (by
      intro a a2 h
      simp only [fencedStep] at h
      split at h
      next => cases h
      next =>
        split at h
        next => cases h
        next he =>
          injection h with h2
          subst h2
          dsimp only
          have := skipUntilChar_ge data a.1 nlB
          omega)
    (beg, [])

/-- A successful gather ends strictly past its start. -/
theorem fencedGather_ge (data marker : Bytes) (beg : Nat) :
    ∀ r, fencedGather data marker beg = some r → beg + 1 ≤ r.1 := by
  unfold fencedGather
  refine loopRun_inv _ _ _ (fun s : Nat × Bytes => beg ≤ s.1)
    (fun o : Option (Nat × Bytes) => ∀ r : Nat × Bytes, o = some r → beg + 1 ≤ r.1)
    ?_ ?_ _ ?_
  · intro a a2 ha h
    simp only [fencedStep] at h
    split at h
    next => cases h
    next =>
      split at h
      next => cases h
      next =>
        injection h with h2
        subst h2
        dsimp only
        have := skipUntilChar_ge data a.1 nlB
        omega
  · intro a b ha h
    simp only [fencedStep] at h
    split at h
    next hfe =>
      injection h with h2
      subst h2
      intro r hr
      injection hr with hr2
      subst hr2
      dsimp only
      omega
    next =>
      split at h
      next =>
        injection h with h2
        subst h2
        intro r hr
        cases hr
      next => cases h
  · exact Nat.le_refl beg

/-- Translation of fencedCodeBlock, returning (consumed, nodes); with
doRender false only the consumed count is produced. -/
def fencedCodeBlock (p : Parser) (data : Bytes) (doRender : Bool) : Nat × List Node :=
  let fl := isFenceLine data []
  if fl.1 = 0 ∨ fl.1 ≥ data.length then (0, [])
  else
    match fencedGather data fl.2.1 fl.1 with
    | none => (0, [])
    | some r =>
      if ¬doRender then (r.1, [])
      else
        let codeNode := finalizeCode true (fl.2.2 ++ nlB :: r.2)
        if ¬p.exts.mmark then (r.1, [codeNode])
        else
          let cap := p.captionFn (data.drop r.1) (str2b "Figure: ")
          if cap.2.2 > 0 then
            (r.1 + cap.2.2, [Node.captionFigure cap.2.1 [codeNode, Node.caption cap.1]])
          else (r.1, [codeNode])

/-- A recognized fenced code block consumes at least two bytes. -/
theorem fencedCodeBlock_pos (p : Parser) (data : Bytes) (dr : Bool)
    (h : (fencedCodeBlock p data dr).1 ≠ 0) : 2 ≤ (fencedCodeBlock p data dr).1 := by
  unfold fencedCodeBlock at h ⊢
  by_cases hg : (isFenceLine data []).1 = 0 ∨ (isFenceLine data []).1 ≥ data.length
  · rw [if_pos hg] at h
    exact absurd rfl h
  rw [if_neg hg] at h ⊢
  have hbeg : (isFenceLine data []).1 ≠ 0 := fun he => hg (Or.inl he)
  generalize hfg : fencedGather data (isFenceLine data []).2.1 (isFenceLine data []).1 = fg at h ⊢
  cases fg with
  | none => exact absurd rfl h
  | some r =>
    have hge := fencedGather_ge data (isFenceLine data []).2.1 (isFenceLine data []).1 r hfg
    dsimp only at h ⊢
    split
    next => dsimp only; omega
    next =>
      split
      next => dsimp only; omega
      next =>
        split
        next => dsimp only; omega
        next => dsimp only; omega

/-! ### Math blocks, paragraphs rendering, list type tests -/

/-- The double-dollar search of blockMath. -/
def mathScan (data : Bytes) (i : Nat) : Nat :=
  loopRun
    (fun a => if a + 1 < data.length ∧ (byteAt data a ≠ 36 ∨ byteAt data (a + 1) ≠ 36)
      then .inr (a + 1) else .inl a)
    (fun a => data.length + 1 - a)
    (by
      intro a a2 h
      dsimp only at h ⊢
      split at h
      next hc =>
        injection h with h2
        omega
      next hc => cases h)
    i

/-- Translation of blockMath, returning (consumed, nodes). -/
def blockMath (data : Bytes) : Nat × List Node :=
  if data.length ≤ 4 ∨ byteAt data 0 ≠ 36 ∨ byteAt data 1 ≠ 36 ∨ byteAt data 2 = 36
  then (0, [])
  else
    let e := mathScan data 2
    if e + 1 = data.length then (0, [])
    else (e + 2, [Node.mathBlock (slice data 2 e)])

/-- Translation of renderParagraph: trim leading spaces, one trailing
newline and trailing spaces, and emit a Paragraph node (nothing for empty
input). -/
def renderParagraph (data : Bytes) : List Node :=
  if data.length = 0 then []
  else
    let beg := skipChar data 0 spB
    let e0 := if byteAt data (data.length - 1) = nlB then data.length - 1 else data.length
    [Node.paragraph (slice data beg (trimSpGT data beg e0))]

/-- Translation of listTypeChanged. -/
def listTypeChanged (data : Bytes) (flags : ListTy) : Bool :=
  if dliPrefix data > 0 ∧ flags.definition = false then true
  else if oliPrefix data > 0 ∧ flags.ordered = false then true
  else if uliPrefix data > 0 ∧ (flags.ordered ∨ flags.definition) then true
  else false

/-- The start/delimiter computation of the ordered-list dispatcher branch:
given the oliPrefix length i, the start number is parsed only under the
OrderedListStart extension (with 1 recorded as 0), while the delimiter byte
is captured whenever i > 2 regardless of the extension. -/
def oliStartDelim (exts : Exts) (data : Bytes) (i : Nat) : Nat × Nat :=
  if i > 2 then
    let start := if exts.orderedListStart then
        let s := goAtoi (data.take (i - 2))
        if s = 1 then 0 else s
      else 0
    (start, byteAt data (i - 2))
  else (0, 46)

/-! ### Block quotes -/

/-- One character of the quote line scan: steps over a line, folding a whole
fenced code block into the line when one starts here. -/
def quoteInnerStep (p : Parser) (data : Bytes) (e : Nat) : Nat ⊕ Nat :=
  if e < data.length ∧ byteAt data e ≠ nlB then
    if p.exts.fencedCode then
      let i := (fencedCodeBlock p (data.drop e) false).1
      if i > 0 then .inl (e + i - 1) else .inr (e + 1)
    else .inr (e + 1)
  else .inl e

/-- The quote line scan. -/
def quoteInner (p : Parser) (data : Bytes) (beg : Nat) : Nat :=
  loopRun (quoteInnerStep p data) (fun a => data.length + 1 - a)
    (by
      intro a a2 h
      dsimp only
      simp only [quoteInnerStep] at h
      split at h
      next hc =>
        split at h
        next =>
          split at h
          next => cases h
          next =>
            injection h with h2
            omega
        next =>
          injection h with h2
          omega
      next => cases h)
    beg

/-- Where the quote line scan can stop: never before beg, and either past
a fenced block (strictly forward), at the end of the buffer, or on a
newline byte. -/
theorem quoteInner_stop (p : Parser) (data : Bytes) (beg : Nat) :
    beg ≤ quoteInner p data beg ∧
      (beg + 1 ≤ quoteInner p data beg ∨ data.length ≤ quoteInner p data beg ∨
        byteAt data (quoteInner p data beg) = nlB) := by
  unfold quoteInner
  refine loopRun_inv _ _ _ (fun a => beg ≤ a)
    (fun b => beg ≤ b ∧ (beg + 1 ≤ b ∨ data.length ≤ b ∨ byteAt data b = nlB)) ?_ ?_ _ ?_
  · intro a a2 ha h
    simp only [quoteInnerStep] at h
    split at h
    next =>
      split at h
      next =>
        split at h
        next => cases h
        next =>
          injection h with h2
          omega
      next =>
        injection h with h2
        omega
    next => cases h
  · intro a b ha h
    simp only [quoteInnerStep] at h
    split at h
    next hc =>
      split at h
      next =>
        split at h
        next hpos =>
          injection h with h2
          have h2b := fencedCodeBlock_pos p (data.drop a) false (by omega)
          subst h2
          exact ⟨by omega, Or.inl (by omega)⟩
        next => cases h
      next => cases h
    next hc =>
      injection h with h2
      subst h2
      refine ⟨ha, ?_⟩
      rcases Nat.lt_or_ge a data.length with hl | hl
      · right; right
        by_contra hne
        exact hc ⟨hl, hne⟩
      · right; left; exact hl
  · exact Nat.le_refl beg

/-- One gathered line of the quote loop; state (beg, end, buffer), final
outcome (end, buffer). -/
def quoteStep (p : Parser) (data : Bytes) (s : Nat × Nat × Bytes) :
    (Nat × Bytes) ⊕ (Nat × Nat × Bytes) :=
  if s.1 < data.length then
    let e1 := skipCharN data (quoteInner p data s.1) nlB 1
    let pre := quotePrefix (data.drop s.1)
    if pre > 0 then .inr (e1, e1, s.2.2 ++ slice data (s.1 + pre) e1)
    else if terminateBlockquote data s.1 e1 then .inl (e1, s.2.2)
    else .inr (e1, e1, s.2.2 ++ slice data s.1 e1)
  else .inl (s.2.1, s.2.2)

/-- A gathered quote line always moves the cursor strictly forward. -/
theorem quoteStep_lt (p : Parser) (data : Bytes) (b : Nat) (hb : b < data.length) :
    b < skipCharN data (quoteInner p data b) nlB 1 := by
  have hq := quoteInner_stop p data b
  rw [skipCharN1_eq]
  split
  next hc => omega
  next hc =>
    rcases hq.2 with h1 | h1 | h1
    · omega
    · omega
    · have : ¬ quoteInner p data b < data.length := fun hl => hc ⟨hl, h1⟩
      omega

/-- The quote gather loop: returns (consumed, gathered buffer). -/
def quoteGatherT (p : Parser) (data : Bytes) : Nat × Bytes :=
  loopRun (quoteStep p data) (fun s => data.length + 1 - s.1)
    (by
      intro a a2 h
      simp only [quoteStep] at h
      split at h
      next hlt =>
        have key := quoteStep_lt p data a.1 hlt
        split at h
        next =>
          injection h with h2
          subst h2
          dsimp only
          omega
        next =>
          split at h
          next => cases h
          next =>
            injection h with h2
            subst h2
            dsimp only
            omega
      next => cases h)
    (0, 0, [])

/-! ### The listItem line gatherer -/

/-- The mutable locals of the gatherlines loop of listItem. -/
structure GatherSt where
  line : Nat
  i : Nat
  raw : Bytes
  cbl : Bool
  sub : Nat
  flags : ListTy

/-- The common tail of a gatherlines iteration: re-introduce a blank, append
the chunk, advance line. -/
def gatherFinish (s : GatherSt) (chunk : Bytes) (i : Nat) : GatherSt :=
  { line := i, i := i, raw := s.raw ++ (if s.cbl then [nlB] else []) ++ chunk,
    cbl := false, sub := s.sub, flags := s.flags }

/-- The (indent, indentIndex) pair of a gathered line: a tab counts as an
indent of four with index one, otherwise up to four leading spaces. -/
def gIndentPair (data : Bytes) (line i : Nat) : Nat × Nat :=
  if byteAt data line = tabB then ((4 : Nat), (1 : Nat))
  else (indentCnt data line i, indentCnt data line i)

/-- The gathered line with its indentation stripped. -/
def gChunk (data : Bytes) (line i : Nat) : Bytes :=
  slice data (line + (gIndentPair data line i).2) i

/-- The nested-list chunk after the deep-indent adjustment of listItem:
with an indent index of four or more on a non-definition item, the chunk is
re-sliced to keep the leading whitespace plus one more column. -/
def gChunk2 (data : Bytes) (line i : Nat) : Bytes :=
  if (gIndentPair data line i).2 ≥ 4 ∧ dliPrefix (gChunk data line i) = 0 then
    slice data (line + (gIndentPair data line i).2 -
      (skipChar (gChunk data line i) 0 spB + 1)) i
  else gChunk data line i

/-- The flag update of the not-deeper nested-list case. -/
def gFlagsNested (chunk2 : Bytes) (cbl : Bool) (flags : ListTy) : ListTy :=
  if listTypeChanged chunk2 flags then { flags with endList := true }
  else if cbl then { flags with containsBlock := true }
  else flags

/-- The sublist-offset update of the deeper nested-list case. -/
def gSub (chunk2 : Bytes) (sub : Nat) (raw : Bytes) : Nat :=
  if sub = 0 then
    (if dliPrefix chunk2 > 0 then backUntilChar raw (raw.length - 1) nlB else raw.length)
  else sub

/-- The body of a gatherlines iteration, after the end of the current line
has been found at i. -/
def gatherStepCore (p : Parser) (data : Bytes) (isDef : Bool) (itemIndent : Nat)
    (s : GatherSt) (i : Nat) : GatherSt ⊕ GatherSt :=
  if IsEmptyB (slice data s.line i) > 0 then
    .inr { s with cbl := true, line := i, i := i }
  else if (¬isDef ∧ p.exts.fencedCode) ∧ (isFenceLine (gChunk data s.line i) []).1 > 0 ∧
      (gIndentPair data s.line i).1 = 0 then
    .inl { s with i := i, flags := { s.flags with endList := true } }
  else if (uliPrefix (gChunk data s.line i) > 0 ∧ ¬isHRule (gChunk data s.line i)) ∨
      oliPrefix (gChunk data s.line i) > 0 ∨ dliPrefix (gChunk data s.line i) > 0 then
    if (gIndentPair data s.line i).1 ≤ itemIndent then
      .inl { s with i := i, flags := gFlagsNested (gChunk2 data s.line i) s.cbl s.flags }
    else
      .inr (gatherFinish
        { s with flags := (if s.cbl then { s.flags with containsBlock := true } else s.flags),
                 sub := gSub (gChunk2 data s.line i) s.sub s.raw }
        (gChunk2 data s.line i) i)
  else if isPrefixHeading p.exts (gChunk data s.line i) ∨
      isPrefixSpecialHeading p.exts (gChunk data s.line i) then
    if s.cbl ∧ (gIndentPair data s.line i).1 < 4 then
      .inl { s with i := i, flags := { s.flags with endList := true } }
    else
      .inr (gatherFinish { s with flags := { s.flags with containsBlock := true } }
        (gChunk data s.line i) i)
  else if s.cbl ∧ (gIndentPair data s.line i).1 < 4 then
    if s.flags.definition ∧ i < data.length - 1 then
      if i < data.length - 1 ∧ byteAt data i ≠ 58 ∧
          nlRunScan data (skipUntilChar data i nlB) < data.length - 1 ∧
          byteAt data (nlRunScan data (skipUntilChar data i nlB)) ≠ 58 then
        .inl { s with i := i, flags := { s.flags with endList := true } }
      else .inl { s with i := i }
    else .inl { s with i := i, flags := { s.flags with endList := true } }
  else if s.cbl then
    .inr (gatherFinish
      { s with flags := { s.flags with containsBlock := true },
               raw := s.raw ++ [nlB] }
      (gChunk data s.line i) i)
  else .inr (gatherFinish s (gChunk data s.line i) i)

/-- One iteration of the gatherlines loop of listItem. -/
def gatherStep (p : Parser) (data : Bytes) (isDef : Bool) (itemIndent : Nat)
    (s : GatherSt) : GatherSt ⊕ GatherSt :=
  if s.line < data.length then
    gatherStepCore p data isDef itemIndent s (scanNl data (s.i + 1))
  else .inl s

/-- A continued gather iteration puts both cursors at the new line end. -/
theorem gatherStepCore_inr (p : Parser) (data : Bytes) (isDef : Bool)
    (itemIndent : Nat) (s : GatherSt) (i : Nat) (s2 : GatherSt)
    (h : gatherStepCore p data isDef itemIndent s i = .inr s2) :
    s2.line = i ∧ s2.i = i := by
  unfold gatherStepCore at h
  split at h
  next =>
    injection h with h2
    subst h2
    exact ⟨rfl, rfl⟩
  next =>
  split at h
  next => cases h
  next =>
  split at h
  next =>
    split at h
    next => cases h
    next =>
      injection h with h2
      subst h2
      exact ⟨rfl, rfl⟩
  next =>
  split at h
  next =>
    split at h
    next => cases h
    next =>
      injection h with h2
      subst h2
      exact ⟨rfl, rfl⟩
  next =>
  split at h
  next =>
    split at h
    next =>
      split at h
      next => cases h
      next => cases h
    next => cases h
  next =>
  split at h
  next =>
    injection h with h2
    subst h2
    exact ⟨rfl, rfl⟩
  next =>
    injection h with h2
    subst h2
    exact ⟨rfl, rfl⟩

/-- The gatherlines loop of listItem. -/
def gatherLines (p : Parser) (data : Bytes) (isDef : Bool) (itemIndent : Nat)
    (s0 : GatherSt) : GatherSt :=
  loopRun (gatherStep p data isDef itemIndent)
    (fun s => data.length + 1 - min s.line s.i)
    (by
      intro a a2 h
      dsimp only
      simp only [gatherStep] at h
      split at h
      next hlt =>
        have hc := gatherStepCore_inr p data isDef itemIndent a (scanNl data (a.i + 1)) a2 h
        have hge := scanNl_ge data (a.i + 1)
        omega
      next => cases h)
    s0

/-! ### The block dispatcher

The mutually recursive core of Block, modelled with a fuel argument: a none
result means the fuel ran out (in particular a dispatcher iteration that
consumes no bytes exhausts any fuel, the functional image of a Go loop that
no longer makes progress). -/

mutual

/-- Translation of Block: depth-cap check, nesting increment, dispatcher
loop, nesting decrement. -/
def blockFn : Nat → Parser → Bytes → Option (Parser × List Node)
  | 0, _, _ => none
  | fuel + 1, p, data =>
    if p.nesting ≥ p.maxNesting then some (p, [])
    else do
      let r ← blockLoopFn fuel { p with nesting := p.nesting + 1 } data
      some ({ r.1 with nesting := r.1.nesting - 1 }, r.2)
termination_by structural fuel => fuel


/-- The dispatcher loop of Block: one recognizer step per iteration until
the buffer is empty. -/
def blockLoopFn : Nat → Parser → Bytes → Option (Parser × List Node)
  | 0, _, _ => none
  | fuel + 1, p, data =>
    if data.length = 0 then some (p, [])
    else do
      let r ← blockStepFn fuel p data
      let r2 ← blockLoopFn fuel r.1 (data.drop r.2.2)
      some (r2.1, r.2.1 ++ r2.2)
termination_by structural fuel => fuel


/-- One iteration of the dispatcher: the recognizers in source order up to
the title block, returning (new state, nodes, bytes consumed). -/
def blockStepFn : Nat → Parser → Bytes → Option (Parser × List Node × Nat)
  | 0, _, _ => none
  | fuel + 1, p, data =>
    let aC := if p.exts.attributes then p.attributeFn data else 0
    let d := data.drop aC
    let inc1 := p.isIncludeFn d
    let useCode := inc1.2.2 = 0
    let inc := if useCode then p.isCodeIncludeFn d else inc1
    if p.exts.includes ∧ inc.2.2 > 0 then
      let c := inc.2.2
      let included0 := (if useCode then p.readCodeIncludeFn else p.readIncludeFn)
          (p.includeStack.getLastD []) inc.1 inc.2.1
      let capF := p.captionFn (d.drop (c + 1)) (str2b "Figure: ")
      let capT := p.captionFn (d.drop (c + 1)) (str2b "Table: ")
      let capQ := p.captionFn (d.drop (c + 1)) (str2b "Quote: ")
      let capcon := if capF.2.2 > 0 then capF.2.2
        else if capT.2.2 > 0 then capT.2.2
        else if capQ.2.2 > 0 then capQ.2.2 else 0
      let included := if capcon > 0 then included0 ++ slice d (c + 1) (c + 1 + capcon)
        else included0
      let c2 := if capcon > 0 then c + 1 + capcon else c
      do
        let r ← blockFn fuel { p with includeStack := p.includeStack ++ [inc.1] } included
        some ({ r.1 with includeStack := r.1.includeStack.dropLast }, r.2, aC + c2)
    else
      let hr := match p.parserHook with
        | some f => f d
        | none => (none, none, 0)
      if hr.2.2 > 0 then
        match hr.1 with
        | some t =>
          (match hr.2.1 with
           | some bd => do
               let r ← blockFn fuel p bd
               some (r.1, [Node.custom t r.2], aC + hr.2.2)
           | none => some (p, [Node.custom t []], aC + hr.2.2))
        | none => some (p, [], aC + hr.2.2)
      else if isPrefixHeading p.exts d then
        let r := prefixHeading p.exts d
        some (p, r.2, aC + r.1)
      else if isPrefixSpecialHeading p.exts d then
        let r := prefixSpecialHeading p.exts d
        some (p, r.2, aC + r.1)
      else if d.length = 0 then some (p, [], aC)
      else if byteAt d 0 = 60 ∧ (html p.exts d true).1 > 0 then
        let r := html p.exts d true
        some (p, r.2, aC + r.1)
      else if p.exts.titleblock ∧ byteAt d 0 = 37 then
        let r := titleBlock d
        if r.1 > 0 then some (p, r.2, aC + r.1)
        else blockStepTail fuel p d aC r.2
      else blockStepTail fuel p d aC []
termination_by structural fuel => fuel


/-- The rest of the dispatcher chain after the title block (pre carries the
nodes a zero-consumption title block already emitted). -/
def blockStepTail : Nat → Parser → Bytes → Nat → List Node →
    Option (Parser × List Node × Nat)
  | 0, _, _, _, _ => none
  | fuel + 1, p, d, aC, pre =>
    let n := IsEmptyB d
    if n > 0 then some (p, pre, aC + n)
    else if codePrefix d > 0 then
      let r := code d
      some (p, pre ++ r.2, aC + r.1)
    else if p.exts.fencedCode ∧ (fencedCodeBlock p d true).1 > 0 then
      let r := fencedCodeBlock p d true
      some (p, pre ++ r.2, aC + r.1)
    else if isHRule d then
      let i := skipUntilChar d 0 nlB
      some (p, pre ++ [Node.horizontalRule (trimSet (d.take i) [spB, nlB])], aC + i)
    else if quotePrefix d > 0 then do
      let r ← quoteFn fuel p d
      some (r.1, pre ++ r.2.1, aC + r.2.2)
    else if p.exts.mmark ∧ p.asidePrefixFn d > 0 then
      some (p, pre ++ [Node.asideNode], aC + p.asideFn d)
    else if p.exts.mmark ∧ p.figureFn d > 0 then
      some (p, pre ++ [Node.captionFigure [] []], aC + p.figureFn d)
    else if p.exts.tables ∧ p.tableFn d > 0 then
      some (p, pre ++ [Node.tableNode], aC + p.tableFn d)
    else if uliPrefix d > 0 then do
      let r ← listFn fuel p d {} 0 46
      some (r.1, pre ++ r.2.1, aC + r.2.2)
    else if oliPrefix d > 0 then do
      let sd := oliStartDelim p.exts d (oliPrefix d)
      let r ← listFn fuel p d { ordered := true } sd.1 sd.2
      some (r.1, pre ++ r.2.1, aC + r.2.2)
    else if p.exts.definitionLists ∧ dliPrefix d > 0 then do
      let r ← listFn fuel p d { definition := true } 0 46
      some (r.1, pre ++ r.2.1, aC + r.2.2)
    else if p.exts.mathJax ∧ (blockMath d).1 > 0 then
      let r := blockMath d
      some (p, pre ++ r.2, aC + r.1)
    else if p.exts.mmark ∧ p.docMatterFn d > 0 then
      some (p, pre ++ [Node.documentMatter], aC + p.docMatterFn d)
    else do
      let r ← paragraphFn fuel p d
      some (r.1, pre ++ r.2.1, aC + r.2.2)
termination_by structural fuel => fuel


/-- Translation of quote: gather the quoted lines, parse them recursively,
wrap in a BlockQuote (with the Mmark caption variant). -/
def quoteFn : Nat → Parser → Bytes → Option (Parser × List Node × Nat)
  | 0, _, _ => none
  | fuel + 1, p, data =>
    let g := quoteGatherT p data
    if ¬p.exts.mmark then do
      let r ← blockFn fuel p g.2
      some (r.1, [Node.blockQuote r.2], g.1)
    else
      let cap := p.captionFn (data.drop g.1) (str2b "Quote: ")
      if cap.2.2 > 0 then do
        let r ← blockFn fuel p g.2
        some (r.1,
          [Node.captionFigure cap.2.1 [Node.blockQuote r.2, Node.caption cap.1]],
          g.1 + cap.2.2)
      else do
        let r ← blockFn fuel p g.2
        some (r.1, [Node.blockQuote r.2], g.1)
termination_by structural fuel => fuel


/-- Translation of list: create the List node, drive listItem in a loop, and
run finalizeList over the collected items. -/
def listFn : Nat → Parser → Bytes → ListTy → Nat → Nat →
    Option (Parser × List Node × Nat)
  | 0, _, _, _, _, _ => none
  | fuel + 1, p, data, flags0, start, delim =>
    let flags := { flags0 with beginList := true }
    do
      let r ← listLoopFn fuel p data flags 0 true []
      some (r.1,
        [Node.listNode flags (finalizeList r.2.2.2 r.2.2.1) start delim r.2.2.2],
        r.2.1)
termination_by structural fuel => fuel


/-- The item loop of list: the Tight flag is cleared as soon as an item
reports ListItemContainsBlock; the loop ends on a zero skip or the
ListItemEndOfList flag. -/
def listLoopFn : Nat → Parser → Bytes → ListTy → Nat → Bool → List Node →
    Option (Parser × Nat × Bool × List Node)
  | 0, _, _, _, _, _, _ => none
  | fuel + 1, p, data, flags, i, tight, acc =>
    if i < data.length then do
      let r ← listItemFn fuel p (data.drop i) flags
      let flags2 := r.2.1
      let skip := r.2.2.2
      let tight2 := if flags2.containsBlock then false else tight
      let i2 := i + skip
      let acc2 := acc ++ r.2.2.1
      if skip = 0 ∨ flags2.endList then some (r.1, i2, tight2, acc2)
      else listLoopFn fuel r.1 data { flags2 with beginList := false } i2 tight2 acc2
    else some (p, i, tight, acc)
termination_by structural fuel => fuel


/-- Translation of listItem: prefix selection, first line, the gatherlines
loop, and the final rendering of the item body (recursive block parse when a
block is contained, an intermediate paragraph otherwise). -/
def listItemFn : Nat → Parser → Bytes → ListTy →
    Option (Parser × ListTy × List Node × Nat)
  | 0, _, _, _ => none
  | fuel + 1, p, data, flags0 =>
    let isDef := flags0.definition
    let itemIndent := if byteAt data 0 = tabB then 4 else skipCharN data 0 spB 3
    let iU := uliPrefix data
    let iO := oliPrefix data
    let iD := dliPrefix data
    let sel : Nat × Nat × Nat × ListTy :=
      if iU ≠ 0 then (iU, byteAt data (iU - 2), 46, flags0)
      else if iO ≠ 0 then (iO, 42, byteAt data (iO - 2), flags0)
      else if iD ≠ 0 then (iD, 42, 46, { flags0 with term := false })
      else (0, 42, 46, flags0)
    if sel.1 = 0 ∧ ¬isDef then some (p, flags0, [], 0)
    else
      let flags1 := if sel.1 = 0 then { sel.2.2.2 with term := true } else sel.2.2.2
      let i1 := skipChar data sel.1 spB
      let i2 := if i1 = 0 then 0 else scanNl data i1
      let st := gatherLines p data isDef itemIndent
        { line := i2, i := i2, raw := slice data i1 i2, cbl := false, sub := 0,
          flags := flags1 }
      if st.flags.containsBlock ∧ ¬st.flags.term then
        if st.sub > 0 then do
          let r1 ← blockFn fuel p (st.raw.take st.sub)
          let r2 ← blockFn fuel r1.1 (st.raw.drop st.sub)
          some (r2.1, st.flags,
            [Node.listItem st.flags sel.2.1 sel.2.2.1 (r1.2 ++ r2.2)], st.line)
        else do
          let r1 ← blockFn fuel p st.raw
          some (r1.1, st.flags,
            [Node.listItem st.flags sel.2.1 sel.2.2.1 r1.2], st.line)
      else
        if st.sub > 0 then do
          let r1 ← blockFn fuel p (st.raw.drop st.sub)
          some (r1.1, st.flags,
            [Node.listItem st.flags sel.2.1 sel.2.2.1
              (Node.paragraph (st.raw.take st.sub) :: r1.2)], st.line)
        else
          some (p, st.flags,
            [Node.listItem st.flags sel.2.1 sel.2.2.1
              [Node.paragraph st.raw]], st.line)
termination_by structural fuel => fuel


/-- Translation of paragraph: run the line loop from the start of the
buffer. -/
def paragraphFn : Nat → Parser → Bytes → Option (Parser × List Node × Nat)
  | 0, _, _ => none
  | fuel + 1, p, data => paragraphLoopFn fuel p data 0 0
termination_by structural fuel => fuel


/-- The line loop of paragraph; lineIn is the start of the previous line and
i the cursor; each iteration either ends the paragraph at one of the
interrupting constructs or advances to the next line. -/
def paragraphLoopFn : Nat → Parser → Bytes → Nat → Nat →
    Option (Parser × List Node × Nat)
  | 0, _, _, _, _ => none
  | fuel + 1, p, data, lineIn, i =>
    if i < data.length then
      let prev := lineIn
      let current := data.drop i
      let refEnd := p.isRefFn current
      if refEnd > 0 then some (p, renderParagraph (data.take i), i + refEnd)
      else
        let n := IsEmptyB current
        if n > 0 then
          if p.exts.definitionLists ∧ i < data.length - 1 ∧ byteAt data (i + 1) = 58 then do
            let r ← listFn fuel p (data.drop prev) { definition := true } 0 46
            if r.2.2 > 0 then some (r.1, r.2.1, prev + r.2.2)
            else some (r.1, r.2.1 ++ renderParagraph (data.take i), i + n)
          else some (p, renderParagraph (data.take i), i + n)
        else if i > 0 ∧ isUnderlinedHeading current > 0 then
          let level := isUnderlinedHeading current
          let pv := skipSpLT data (i - 1) prev
          let e2 := trimSpGT data pv (i - 1)
          let hid := if p.exts.autoHeadingIDs then
              sanitizeHeadingID asciiRunes (slice data pv e2)
            else []
          some (p,
            renderParagraph (data.take prev) ++
              [Node.heading level hid false false (slice data pv e2)],
            skipUntilChar data i nlB)
        else if p.exts.laxHTMLBlocks ∧ byteAt data i = 60 ∧
            (html p.exts current false).1 > 0 then
          some (p, renderParagraph (data.take i), i)
        else if isPrefixHeading p.exts current ∨ isPrefixSpecialHeading p.exts current ∨
            isHRule current then
          some (p, renderParagraph (data.take i), i)
        else if quotePrefix current > 0 then
          some (p, renderParagraph (data.take i), i)
        else if p.exts.fencedCode ∧ (fencedCodeBlock p current false).1 > 0 then
          some (p, renderParagraph (data.take i), i)
        else if p.exts.mmark ∧ p.figureFn current > 0 then
          some (p, renderParagraph (data.take i), i)
        else if p.exts.tables ∧ p.tableHeaderFn current > 0 then
          some (p, renderParagraph (data.take i), i)
        else if p.exts.definitionLists ∧ dliPrefix current ≠ 0 then do
          let r ← listFn fuel p (data.drop prev) { definition := true } 0 46
          some (r.1, r.2.1, r.2.2 + prev)
        else if p.exts.noEmptyLineBeforeBlock ∧ (uliPrefix current ≠ 0 ∨
            oliPrefix current ≠ 0 ∨ quotePrefix current ≠ 0 ∨ codePrefix current ≠ 0) then
          some (p, renderParagraph (data.take i), i)
        else
          let nl := skipUntilChar data i nlB
          paragraphLoopFn fuel p data i (if nl < data.length then nl + 1 else data.length)
    else some (p, renderParagraph (data.take i), i)


termination_by structural fuel => fuel
end

/-! ### C4: the nesting cap -/

/-- C4: for every input buffer and every parser state whose nesting counter
has reached or exceeded the maximum nesting depth, Block returns immediately:
it consumes nothing, produces no nodes, and leaves the parser state (nesting
counter, include stack, extension set and all collaborators) exactly as it
was — the return happens before the counter is incremented, so no error and
no state change occurs no matter how deep the input nests. -/
theorem c4_nesting_cap (fuel : Nat) (p : Parser) (data : Bytes)
    (h : p.nesting ≥ p.maxNesting) : blockFn (fuel + 1) p data = some (p, []) := by
  simp only [blockFn]
  rw [if_pos h]

/-- Witness: a parser with nesting 5 over a cap of 3 returns its state
untouched with no nodes on a nonempty input. -/
theorem c4_witness :
    ({ mkParser {} 3 with nesting := 5 } : Parser).nesting ≥
      ({ mkParser {} 3 with nesting := 5 } : Parser).maxNesting ∧
    blockFn 1 { mkParser {} 3 with nesting := 5 } (str2b "* deep\n") =
      some ({ mkParser {} 3 with nesting := 5 }, []) :=
  ⟨by decide, c4_nesting_cap 0 _ _ (by decide)⟩

/-! ### C6: ordered-list start number and delimiter capture -/

/-- A recognized ordered-list prefix spans at least three bytes. -/
theorem oliPrefix_ge3 (data : Bytes) (h : oliPrefix data ≠ 0) : 3 ≤ oliPrefix data := by
  have hge := skipDigits_ge data (skipCharN data 0 spB 3)
  simp only [oliPrefix] at h ⊢
  by_cases h1 : skipCharN data 0 spB 3 = skipDigits data (skipCharN data 0 spB 3) ∨
      skipDigits data (skipCharN data 0 spB 3) + 1 ≥ data.length
  · rw [if_pos h1] at h
    exact absurd rfl h
  rw [if_neg h1] at h ⊢
  by_cases h2 : (byteAt data (skipDigits data (skipCharN data 0 spB 3)) ≠ 46 ∧
      byteAt data (skipDigits data (skipCharN data 0 spB 3)) ≠ 41) ∨
      (byteAt data (skipDigits data (skipCharN data 0 spB 3) + 1) ≠ spB ∧
       byteAt data (skipDigits data (skipCharN data 0 spB 3) + 1) ≠ tabB)
  · rw [if_pos h2] at h
    exact absurd rfl h
  rw [if_neg h2]
  push_neg at h1
  omega

/-- C6 (amended): when the dispatcher recognizes an ordered-list prefix, the
prefix length is at least 3, so the i > 2 branch always runs: the delimiter
byte is captured from the input unconditionally — NOT only under the
OrderedListStart extension — while the start number is parsed only when that
extension is enabled, with a parsed value of exactly 1 recorded as the
default 0. -/
theorem c6_oli_start_delim (e : Exts) (data : Bytes) (h : oliPrefix data ≠ 0) :
    3 ≤ oliPrefix data ∧
    (oliStartDelim e data (oliPrefix data)).2 = byteAt data (oliPrefix data - 2) ∧
    (oliStartDelim e data (oliPrefix data)).1 =
      (if e.orderedListStart then
        (if goAtoi (data.take (oliPrefix data - 2)) = 1 then 0
         else goAtoi (data.take (oliPrefix data - 2)))
       else 0) := by
  have h3 := oliPrefix_ge3 data h
  refine ⟨h3, ?_, ?_⟩
  · simp only [oliStartDelim]
    rw [if_pos (show oliPrefix data > 2 by omega)]
  · simp only [oliStartDelim]
    rw [if_pos (show oliPrefix data > 2 by omega)]

/-- Witness: on "7) a" with the extension enabled the start 7 and the
delimiter are both captured per the amended statement. -/
theorem c6_witness :
    3 ≤ oliPrefix (str2b "7) a\n") ∧
    (oliStartDelim { orderedListStart := true } (str2b "7) a\n")
        (oliPrefix (str2b "7) a\n"))).2 =
      byteAt (str2b "7) a\n") (oliPrefix (str2b "7) a\n") - 2) ∧
    (oliStartDelim { orderedListStart := true } (str2b "7) a\n")
        (oliPrefix (str2b "7) a\n"))).1 =
      (if ({ orderedListStart := true } : Exts).orderedListStart then
        (if goAtoi ((str2b "7) a\n").take (oliPrefix (str2b "7) a\n") - 2)) = 1 then 0
         else goAtoi ((str2b "7) a\n").take (oliPrefix (str2b "7) a\n") - 2)))
       else 0) :=
  c6_oli_start_delim { orderedListStart := true } (str2b "7) a\n") (by decide)

/-- Counterexample to the literal claim: with every extension disabled the
ordered-list dispatcher branch still captures the delimiter byte 41 from
"7) a" (the default would be 46), both at the branch computation and on the
List node the full parser produces. -/
theorem c6_counterexample :
    (oliStartDelim {} (str2b "7) a\n") (oliPrefix (str2b "7) a\n"))).2 = 41 ∧
    (oliStartDelim {} (str2b "7) a\n") (oliPrefix (str2b "7) a\n"))).2 ≠ 46 ∧
    ((match blockFn 50 (mkParser {} 16) (str2b "7) a\n") with
      | some (_, [Node.listNode _ _ st d _]) => st == 0 && d == 41
      | _ => false) = true) := by
  refine ⟨by decide, by decide, by decide⟩

/-! ### C2: where the Tight flag changes -/

/-- The item loop only ever lowers the Tight flag (true to false), never
raises it. -/
theorem listLoopFn_tight_mono :
    ∀ fuel p data fl i t acc r, listLoopFn fuel p data fl i t acc = some r →
      r.2.2.1 = true → t = true := by
  intro fuel
  induction fuel with
  | zero =>
    intro p data fl i t acc r h
    exact Option.noConfusion h
  | succ f ih =>
    intro p data fl i t acc r h
    unfold listLoopFn at h
    split at h
    next hi =>
      cases hx : listItemFn f p (data.drop i) fl with
      | none =>
        rw [hx] at h
        exact Option.noConfusion h
      | some x =>
        rw [hx] at h
        simp only [Option.bind_eq_bind, Option.some_bind] at h
        split at h
        next =>
          injection h with h2
          subst h2
          dsimp only
          split
          next => intro hf; exact absurd hf (by simp)
          next => exact fun ht => ht
        next =>
          intro hr
          have ht2 := ih _ _ _ _ _ _ _ h hr
          revert ht2
          split
          next => intro hf; exact absurd hf (by simp)
          next => exact fun ht => ht
    next =>
      injection h with h2
      subst h2
      exact fun ht => ht

/-- Unfolding of a final gather iteration of the item loop: when the parsed
item ends the list (or consumes nothing), the loop returns with the Tight
flag lowered exactly when that item reported ListItemContainsBlock. -/
theorem listLoopFn_step_last (fuel : Nat) (p : Parser) (data : Bytes) (fl : ListTy)
    (i : Nat) (t : Bool) (acc : List Node) (x : Parser × ListTy × List Node × Nat)
    (hi : i < data.length) (hx : listItemFn fuel p (data.drop i) fl = some x)
    (hend : x.2.2.2 = 0 ∨ x.2.1.endList = true) :
    listLoopFn (fuel + 1) p data fl i t acc =
      some (x.1, i + x.2.2.2, (if x.2.1.containsBlock = true then false else t),
        acc ++ x.2.2.1) := by
  simp only [listLoopFn]
  rw [if_pos hi, hx]
  simp only [Option.bind_eq_bind, Option.some_bind]
  rw [if_pos hend]

/-- C2 (amended): the Tight flag of a List node starts true and is only ever
changed from true to false, but the change happens in the item-gathering loop
of list — lowered exactly when the just-parsed item reports
ListItemContainsBlock — and NOT during the finalization pass: finalizeList
never modifies the flag, because its endsWithBlankLine test is constantly
false in this source tree. -/
theorem c2_tight_flag :
    (∀ (items : List Node) (t2 : Bool), finalizeList items t2 = t2) ∧
    (∀ (b : Node), endsWithBlankLine b = false) ∧
    (∀ fuel p data fl i t acc r, listLoopFn fuel p data fl i t acc = some r →
      r.2.2.1 = true → t = true) ∧
    (∀ fuel p data fl i t acc x, i < data.length →
      listItemFn fuel p (data.drop i) fl = some x →
      (x.2.2.2 = 0 ∨ x.2.1.endList = true) →
      listLoopFn (fuel + 1) p data fl i t acc =
        some (x.1, i + x.2.2.2, (if x.2.1.containsBlock = true then false else t),
          acc ++ x.2.2.1)) :=
  ⟨finalizeList_id, endsWithBlankLine_false, listLoopFn_tight_mono,
   fun fuel p data fl i t acc x hi hx hend =>
     listLoopFn_step_last fuel p data fl i t acc x hi hx hend⟩

/-- Witness: a concrete final gather iteration on "* a" followed by a list
type change, with the closed item result spelled out. -/
theorem c2_witness :
    listLoopFn 6 (mkParser {} 16) (str2b "* a\n1. b\n") { beginList := true } 0 true [] =
      some (mkParser {} 16, 0 + 4,
        (if ({ beginList := true, endList := true } : ListTy).containsBlock = true
         then false else true),
        [] ++ [Node.listItem { beginList := true, endList := true } 42 46
          [Node.paragraph [97, 10]]]) :=
  c2_tight_flag.2.2.2 5 (mkParser {} 16) (str2b "* a\n1. b\n") { beginList := true }
    0 true []
    (mkParser {} 16, { beginList := true, endList := true },
      [Node.listItem { beginList := true, endList := true } 42 46
        [Node.paragraph [97, 10]]], 4)
    (by decide) rfl (by decide)


/-- Unfolding of a continuing gather iteration of the item loop. -/
theorem listLoopFn_step_cont (fuel : Nat) (p : Parser) (data : Bytes) (fl : ListTy)
    (i : Nat) (t : Bool) (acc : List Node) (x : Parser × ListTy × List Node × Nat)
    (hi : i < data.length) (hx : listItemFn fuel p (data.drop i) fl = some x)
    (hend : ¬(x.2.2.2 = 0 ∨ x.2.1.endList = true)) :
    listLoopFn (fuel + 1) p data fl i t acc =
      listLoopFn fuel x.1 data { x.2.1 with beginList := false } (i + x.2.2.2)
        (if x.2.1.containsBlock = true then false else t) (acc ++ x.2.2.1) := by
  simp only [listLoopFn]
  rw [if_pos hi, hx]
  simp only [Option.bind_eq_bind, Option.some_bind]
  rw [if_neg hend]

/-- The item loop returns its accumulated state once the cursor passes the
end of the buffer. -/
theorem listLoopFn_exit (fuel : Nat) (p : Parser) (data : Bytes) (fl : ListTy)
    (i : Nat) (t : Bool) (acc : List Node) (hi : ¬ i < data.length) :
    listLoopFn (fuel + 1) p data fl i t acc = some (p, i, t, acc) := by
  simp only [listLoopFn]
  rw [if_neg hi]

/-- Unfolding of list over a completed item loop. -/
theorem listFn_run (fuel : Nat) (p : Parser) (data : Bytes) (fl0 : ListTy)
    (start delim : Nat) (r : Parser × Nat × Bool × List Node)
    (h : listLoopFn fuel p data { fl0 with beginList := true } 0 true [] = some r) :
    listFn (fuel + 1) p data fl0 start delim =
      some (r.1, [Node.listNode { fl0 with beginList := true }
        (finalizeList r.2.2.2 r.2.2.1) start delim r.2.2.2], r.2.1) := by
  simp only [listFn]
  rw [h]
  simp only [Option.bind_eq_bind, Option.some_bind]

/-- Counterexample to the literal claim: finalizeList is the identity on the
Tight flag for every input (its endsWithBlankLine test is constantly false),
yet parsing the two-item list "* a\n\n* b\n" yields a List node whose Tight
flag is false with both items reporting ListItemContainsBlock — the
true-to-false change happens in the gather loop, not in the finalization
pass. -/
theorem c2_counterexample :
    (∀ (items : List Node) (t : Bool), finalizeList items t = t) ∧
    (∀ (b : Node), endsWithBlankLine b = false) ∧
    listFn 12 (mkParser {} 16) (str2b "* a\n\n* b\n") {} 0 46 =
      some (mkParser {} 16,
        [Node.listNode { beginList := true } false 0 46
          [Node.listItem { beginList := true, containsBlock := true } 42 46
            [Node.paragraph [97]],
           Node.listItem { containsBlock := true } 42 46
            [Node.paragraph [98]]]],
        9) := by
  refine ⟨finalizeList_id, endsWithBlankLine_false, ?_⟩
  have h1 : listItemFn 10 (mkParser {} 16) ((str2b "* a\n\n* b\n").drop 0)
      { beginList := true } =
      some (mkParser {} 16, { beginList := true, containsBlock := true },
        [Node.listItem { beginList := true, containsBlock := true } 42 46
          [Node.paragraph [97]]], 5) := rfl
  have h2 : listItemFn 9 (mkParser {} 16) ((str2b "* a\n\n* b\n").drop 5)
      { containsBlock := true } =
      some (mkParser {} 16, { containsBlock := true },
        [Node.listItem { containsBlock := true } 42 46
          [Node.paragraph [98]]], 4) := rfl
  have hA : listLoopFn 11 (mkParser {} 16) (str2b "* a\n\n* b\n")
      { beginList := true } 0 true [] =
      some (mkParser {} 16, 9, false,
        [Node.listItem { beginList := true, containsBlock := true } 42 46
          [Node.paragraph [97]],
         Node.listItem { containsBlock := true } 42 46
          [Node.paragraph [98]]]) :=
    (listLoopFn_step_cont 10 (mkParser {} 16) (str2b "* a\n\n* b\n")
        { beginList := true } 0 true []
        (mkParser {} 16, { beginList := true, containsBlock := true },
          [Node.listItem { beginList := true, containsBlock := true } 42 46
            [Node.paragraph [97]]], 5)
        (by decide) h1 (by decide)).trans
      ((listLoopFn_step_cont 9 (mkParser {} 16) (str2b "* a\n\n* b\n")
          { containsBlock := true } 5 false
          [Node.listItem { beginList := true, containsBlock := true } 42 46
            [Node.paragraph [97]]]
          (mkParser {} 16, { containsBlock := true },
            [Node.listItem { containsBlock := true } 42 46
              [Node.paragraph [98]]], 4)
          (by decide) h2 (by decide)).trans
        (listLoopFn_exit 8 (mkParser {} 16) (str2b "* a\n\n* b\n")
          { containsBlock := true } 9 false
          [Node.listItem { beginList := true, containsBlock := true } 42 46
            [Node.paragraph [97]],
           Node.listItem { containsBlock := true } 42 46
            [Node.paragraph [98]]]
          (by decide)))
  have hB := listFn_run 11 (mkParser {} 16) (str2b "* a\n\n* b\n") {} 0 46
      (mkParser {} 16, 9, false,
        [Node.listItem { beginList := true, containsBlock := true } 42 46
          [Node.paragraph [97]],
         Node.listItem { containsBlock := true } 42 46
          [Node.paragraph [98]]]) hA
  rw [finalizeList_id] at hB
  exact hB

/-! ### C3: list tightness -/

/-- scanNl computes the first position past a newline. -/
theorem scanNl_stops (data : Bytes) (i j : Nat) (hij : i ≤ j)
    (hrun : ∀ m, i ≤ m → m < j → m < data.length ∧ byteAt data (m - 1) ≠ nlB)
    (hstop : ¬(j < data.length ∧ byteAt data (j - 1) ≠ nlB)) :
    scanNl data i = j := by
  rcases Nat.eq_or_lt_of_le hij with he | hl
  · subst he
    rw [scanNl_eq, if_neg hstop]
  · rw [scanNl_eq, if_pos (hrun i (Nat.le_refl i) hl)]
    exact scanNl_stops data (i + 1) j hl (fun m h1 h2 => hrun m (by omega) h2) hstop
termination_by j - i
decreasing_by omega

/-- Specification-side description of a plain unordered list item line
"* w\n". -/
def uline (w : Bytes) : Bytes := 42 :: 32 :: (w ++ [10])

/-- Specification-side description of a list input made of plain item
lines. -/
def ulist : List Bytes → Bytes
  | [] => []
  | w :: ws => uline w ++ ulist ws

/-- A plain item word: nonempty lowercase ASCII letters. -/
def GoodWord (w : Bytes) : Prop := w ≠ [] ∧ ∀ c ∈ w, 97 ≤ c ∧ c ≤ 122

instance (w : Bytes) : Decidable (GoodWord w) := by
  unfold GoodWord
  infer_instance

/-- The item nodes a tight plain list parses to: one ListItem per word, the
first carrying ListItemBeginningOfList, each wrapping the undressed line as
an intermediate paragraph. -/
def specTightItems : List Bytes → Bool → List Node
  | [], _ => []
  | w :: rest, b =>
    Node.listItem { beginList := b } 42 46 [Node.paragraph (w ++ [10])] ::
      specTightItems rest false

/-- Normal form of an item line followed by more input. -/
theorem uline_append (w L : Bytes) : uline w ++ L = 42 :: 32 :: (w ++ 10 :: L) := by
  simp [uline]

/-- Length of an item line. -/
theorem uline_length (w : Bytes) : (uline w).length = w.length + 3 := by
  simp [uline]

/-- Bytes of a word position are letters. -/
theorem good_byte (w : Bytes) (hw : GoodWord w) (m : Nat) (hm : m < w.length) :
    97 ≤ byteAt w m ∧ byteAt w m ≤ 122 := by
  rw [byteAt, List.getD_eq_getElem w 0 hm]
  exact hw.2 _ (List.getElem_mem hm)

/-- Byte classification of an item line in front of arbitrary data: no byte
before the newline is a newline, and the newline sits at position
w.length + 2. -/
theorem uline_bytes (w L : Bytes) (hw : GoodWord w) :
    (∀ m, m < w.length + 2 → byteAt (42 :: 32 :: (w ++ 10 :: L)) m ≠ nlB) ∧
    byteAt (42 :: 32 :: (w ++ 10 :: L)) (w.length + 2) = 10 := by
  constructor
  · intro m hm
    rcases m with _ | m
    · exact (show (42 : Nat) ≠ 10 by decide)
    rcases m with _ | m
    · exact (show (32 : Nat) ≠ 10 by decide)
    show byteAt (w ++ 10 :: L) m ≠ nlB
    rw [byteAt, List.getD_append w (10 :: L) 0 m (by omega)]
    have hg := good_byte w hw m (by omega)
    rw [byteAt] at hg
    simp only [nlB]
    omega
  · show byteAt (w ++ 10 :: L) w.length = 10
    rw [byteAt, List.getD_append_right w (10 :: L) 0 w.length (Nat.le_refl _)]
    simp

/-- The length of an item line in front of arbitrary data. -/
theorem uline_len3 (w L : Bytes) :
    (42 :: 32 :: (w ++ 10 :: L)).length = w.length + 3 + L.length := by
  simp only [List.length_cons, List.length_append, List.length_cons]
  omega

/-- The leading-space skip of an item line stays at 0. -/
theorem uline_skipsp (w L : Bytes) (mx : Nat) :
    skipCharN (42 :: 32 :: (w ++ 10 :: L)) 0 spB (mx + 1) = 0 := by
  rw [skipCharN]
  rw [if_neg (fun hc => absurd hc.2 (show ¬(42 : Nat) = 32 by decide))]

/-- uliPrefix of an item line is 2. -/
theorem uline_uliPrefix (w L : Bytes) :
    uliPrefix (42 :: 32 :: (w ++ 10 :: L)) = 2 := by
  simp only [uliPrefix]
  rw [uline_skipsp w L 2]
  rw [if_neg (by rw [uline_len3]; omega)]
  rw [if_neg]
  intro hc
  rcases hc with hc | hc
  · exact hc.1 rfl
  · exact hc.1 rfl

/-- oliPrefix of an item line is 0. -/
theorem uline_oliPrefix (w L : Bytes) :
    oliPrefix (42 :: 32 :: (w ++ 10 :: L)) = 0 := by
  simp only [oliPrefix]
  rw [uline_skipsp w L 2]
  have hsd : skipDigits (42 :: 32 :: (w ++ 10 :: L)) 0 = 0 := by
    rw [skipDigits_eq]
    rw [if_neg (fun hc => absurd hc.2 (show ¬ isDigitB 42 = true by decide))]
  rw [hsd]
  rw [if_pos (Or.inl rfl)]

/-- dliPrefix of an item line is 0. -/
theorem uline_dliPrefix (w L : Bytes) :
    dliPrefix (42 :: 32 :: (w ++ 10 :: L)) = 0 := by
  simp only [dliPrefix]
  rw [if_neg (by rw [uline_len3]; omega)]
  have hb0 : byteAt (42 :: 32 :: (w ++ 10 :: L)) 0 = 42 := rfl
  rw [hb0]
  rw [if_pos (Or.inl (by decide))]

/-- isHRule of an item line is false. -/
theorem uline_isHRule (w L : Bytes) (hw : GoodWord w) :
    isHRule (42 :: 32 :: (w ++ 10 :: L)) = false := by
  obtain ⟨c0, w2, hcw⟩ := List.exists_cons_of_ne_nil hw.1
  have hc97 : 97 ≤ c0 ∧ c0 ≤ 122 := hw.2 c0 (by rw [hcw]; exact List.mem_cons_self c0 w2)
  subst hcw
  simp only [isHRule]
  rw [uline_skipsp (c0 :: w2) L 2]
  rw [if_neg (fun hc => hc.1 rfl)]
  rw [isHRuleAux_eq]
  rw [if_pos ⟨by rw [uline_len3]; omega, show (42 : Nat) ≠ 10 by decide⟩]
  rw [if_pos rfl]
  rw [isHRuleAux_eq]
  have hb0 : byteAt (42 :: 32 :: (c0 :: w2 ++ 10 :: L)) 0 = 42 := rfl
  have hb1 : byteAt (42 :: 32 :: (c0 :: w2 ++ 10 :: L)) (0 + 1) = 32 := rfl
  have hb2 : byteAt (42 :: 32 :: (c0 :: w2 ++ 10 :: L)) (0 + 1 + 1) = c0 := rfl
  rw [hb0, hb1]
  rw [if_pos ⟨by rw [uline_len3]; omega, by decide⟩]
  rw [if_neg (by decide)]
  rw [if_neg (by decide)]
  rw [isHRuleAux_eq]
  rw [hb2]
  rw [if_pos ⟨by rw [uline_len3]; omega, by simp only [nlB]; omega⟩]
  rw [if_neg (show ¬ c0 = 42 by omega)]
  rw [if_pos (show c0 ≠ spB by simp only [spB]; omega)]

/-- IsEmpty of an item line is 0. -/
theorem uline_isEmpty (w L : Bytes) :
    IsEmptyB (42 :: 32 :: (w ++ 10 :: L)) = 0 := by
  simp only [IsEmptyB]
  rw [isEmptyAux_eq]
  have hb0 : byteAt (42 :: 32 :: (w ++ 10 :: L)) 0 = 42 := rfl
  rw [hb0]
  rw [if_pos ⟨by rw [uline_len3]; omega, by decide⟩]
  rw [if_neg (by decide)]

/-- Indexing past an appended prefix. -/
theorem byteAt_append_right (A B : Bytes) (k : Nat) :
    byteAt (A ++ B) (A.length + k) = byteAt B k := by
  rw [byteAt, byteAt, List.getD_append_right A B 0 (A.length + k) (by omega)]
  congr 1
  omega

/-- Normal form of a word list with a head. -/
theorem ulist_cons (w : Bytes) (ws : List Bytes) :
    ulist (w :: ws) = 42 :: 32 :: (w ++ 10 :: ulist ws) := by
  show uline w ++ ulist ws = _
  exact uline_append w (ulist ws)

/-- Length of a word list with a head. -/
theorem ulist_cons_length (w : Bytes) (ws : List Bytes) :
    (ulist (w :: ws)).length = w.length + 3 + (ulist ws).length := by
  rw [ulist_cons]
  simp only [List.length_cons, List.length_append, List.length_cons]
  omega

/-- The space skip after the item bullet stops at the word. -/
theorem uline_i1 (w L : Bytes) (hw : GoodWord w) :
    skipChar (42 :: 32 :: (w ++ 10 :: L)) 2 spB = 2 := by
  obtain ⟨c0, w2, hcw⟩ := List.exists_cons_of_ne_nil hw.1
  have hc97 : 97 ≤ c0 ∧ c0 ≤ 122 := hw.2 c0 (by rw [hcw]; exact List.mem_cons_self c0 w2)
  subst hcw
  rw [skipChar_eq]
  rw [if_neg]
  intro hc
  have hb2 : byteAt (42 :: 32 :: (c0 :: w2 ++ 10 :: L)) 2 = c0 := rfl
  rw [hb2] at hc
  have h2 := hc.2
  simp only [spB] at h2
  omega

/-- The line scan from the content start of an item line stops just past the
newline. -/
theorem uline_scanNl2 (w L : Bytes) (hw : GoodWord w) :
    scanNl (42 :: 32 :: (w ++ 10 :: L)) 2 = w.length + 3 := by
  have hb := uline_bytes w L hw
  apply scanNl_stops
  · omega
  · intro m h1 h2
    constructor
    · rw [uline_len3]
      omega
    · exact hb.1 (m - 1) (by omega)
  · intro hc
    exact hc.2 hb.2

/-- The line scan over an item line sitting after a prefix A. -/
theorem uline_scanNl_off (A w L : Bytes) (hw : GoodWord w) :
    scanNl (A ++ (42 :: 32 :: (w ++ 10 :: L))) (A.length + 1) =
      A.length + (w.length + 3) := by
  have hb := uline_bytes w L hw
  apply scanNl_stops
  · omega
  · intro m h1 h2
    constructor
    · simp only [List.length_append, uline_len3]
      omega
    · have hm1 : m - 1 = A.length + (m - 1 - A.length) := by omega
      rw [hm1, byteAt_append_right]
      exact hb.1 (m - 1 - A.length) (by omega)
  · intro hc
    apply hc.2
    have hj : A.length + (w.length + 3) - 1 = A.length + (w.length + 2) := by omega
    rw [hj, byteAt_append_right]
    exact hb.2

/-- The first line of an item is the word with its newline. -/
theorem uline_slice (w L : Bytes) :
    slice (42 :: 32 :: (w ++ 10 :: L)) 2 (w.length + 3) = w ++ [10] := by
  show List.take (w.length + 3 - 2) (w ++ 10 :: L) = w ++ [10]
  have h1 : w ++ 10 :: L = (w ++ [10]) ++ L := by simp
  have h2 : w.length + 3 - 2 = (w ++ [10]).length := by simp
  rw [h1, h2, List.take_left]

/-- Slicing entirely inside the suffix of an append. -/
theorem slice_append_right (A B : Bytes) (a b : Nat) :
    slice (A ++ B) (A.length + a) (A.length + b) = slice B a b := by
  rw [slice, slice]
  rw [List.drop_append]
  congr 1
  omega

/-- Taking a whole uline at the front. -/
theorem uline_take (w : Bytes) (M : Bytes) :
    List.take (w.length + 3) (42 :: 32 :: (w ++ 10 :: M)) = 42 :: 32 :: (w ++ [10]) := by
  have h0 : (42 : Nat) :: 32 :: (w ++ 10 :: M) = (42 :: 32 :: (w ++ [10])) ++ M := by
    simp
  have h2 : w.length + 3 = (42 :: 32 :: (w ++ [10]) : Bytes).length := by
    simp only [List.length_cons, List.length_append, List.length_cons, List.length_nil]
  rw [h0, h2, List.take_left]

/-- A gather loop whose very first step breaks computes that terminal
state. -/
theorem gatherLines_inl (p : Parser) (data : Bytes) (isDef : Bool) (ii : Nat)
    (s s2 : GatherSt) (h : gatherStep p data isDef ii s = .inl s2) :
    gatherLines p data isDef ii s = s2 := by
  unfold gatherLines
  rw [loopRun_eq, h]

/-- listTypeChanged is false on an item line for unordered non-definition
flags. -/
theorem uline_listTypeChanged (w L : Bytes) (fl : ListTy) (ho : fl.ordered = false)
    (hd : fl.definition = false) :
    listTypeChanged (42 :: 32 :: (w ++ 10 :: L)) fl = false := by
  simp only [listTypeChanged]
  rw [uline_dliPrefix, uline_oliPrefix, uline_uliPrefix, ho, hd]
  rw [if_neg (fun hc => absurd hc.1 (by decide))]
  rw [if_neg (fun hc => absurd hc.1 (by decide))]
  rw [if_neg (fun hc => hc.2.elim (fun h => Bool.noConfusion h) (fun h => Bool.noConfusion h))]

/-- When the remaining buffer is exhausted the gather loop stops with the
state unchanged. -/
theorem uline_gatherStep_nil (p : Parser) (w : Bytes) (isDef : Bool) (ii : Nat)
    (fl : ListTy) (raw : Bytes) (sub : Nat) (data : Bytes)
    (hdl : data.length = w.length + 3) :
    gatherStep p data isDef ii ⟨w.length + 3, w.length + 3, raw, false, sub, fl⟩ =
      .inl ⟨w.length + 3, w.length + 3, raw, false, sub, fl⟩ := by
  simp only [gatherStep]
  rw [if_neg]
  intro hc
  have hc' : w.length + 3 < data.length := hc
  rw [hdl] at hc'
  omega

/-- A gather iteration that sees a following plain item line of the same
kind breaks the loop at once, leaving state and flags unchanged. -/
theorem uline_gatherStep (w w2 : Bytes) (r2 : List Bytes) (fl : ListTy) (raw : Bytes)
    (sub : Nat) (hw2 : GoodWord w2) (ho : fl.ordered = false) (hd : fl.definition = false) :
    gatherStep (mkParser {} 16) (uline w ++ ulist (w2 :: r2)) false 0
      ⟨w.length + 3, w.length + 3, raw, false, sub, fl⟩ =
      .inl ⟨w.length + 3, w.length + 3 + (w2.length + 3), raw, false, sub, fl⟩ := by
  have hA : (uline w).length = w.length + 3 := uline_length w
  have hscan : scanNl (uline w ++ ulist (w2 :: r2)) (w.length + 3 + 1) =
      w.length + 3 + (w2.length + 3) := by
    rw [ulist_cons w2 r2, ← hA]
    exact uline_scanNl_off (uline w) w2 (ulist r2) hw2
  have hlen : (uline w ++ ulist (w2 :: r2)).length =
      w.length + 3 + (w2.length + 3 + (ulist r2).length) := by
    rw [List.length_append, hA, ulist_cons_length]
  have hchunk0 : slice (uline w ++ ulist (w2 :: r2)) ((uline w).length + 0)
      ((uline w).length + (w2.length + 3)) = 42 :: 32 :: (w2 ++ [10]) := by
    rw [slice_append_right, ulist_cons w2 r2]
    show List.take (w2.length + 3 - 0) (42 :: 32 :: (w2 ++ 10 :: ulist r2)) = _
    exact uline_take w2 (ulist r2)
  have hchunk : slice (uline w ++ ulist (w2 :: r2)) (w.length + 3 + 0)
      (w.length + 3 + (w2.length + 3)) = 42 :: 32 :: (w2 ++ [10]) := by
    have h := hchunk0
    rw [hA] at h
    exact h
  have hb42 : byteAt (uline w ++ ulist (w2 :: r2)) (w.length + 3) = 42 := by
    have hb0 : byteAt (ulist (w2 :: r2)) 0 = 42 := by rw [ulist_cons]; rfl
    calc byteAt (uline w ++ ulist (w2 :: r2)) (w.length + 3)
        = byteAt (uline w ++ ulist (w2 :: r2)) ((uline w).length + 0) := by rw [hA]
      _ = byteAt (ulist (w2 :: r2)) 0 := byteAt_append_right _ _ 0
      _ = 42 := hb0
  have hip : gIndentPair (uline w ++ ulist (w2 :: r2)) (w.length + 3)
      (w.length + 3 + (w2.length + 3)) = (0, 0) := by
    simp only [gIndentPair]
    rw [hb42]
    rw [if_neg (by decide)]
    have hic : indentCnt (uline w ++ ulist (w2 :: r2)) (w.length + 3)
        (w.length + 3 + (w2.length + 3)) = 0 := by
      simp only [indentCnt, indentCntGo]
      rw [if_neg]
      intro hc
      have hb' : byteAt (uline w ++ ulist (w2 :: r2)) (w.length + 3 + 0) = 42 := hb42
      rw [hb'] at hc
      exact absurd hc.2.2 (by decide)
    rw [hic]
  have hsl : slice (uline w ++ ulist (w2 :: r2)) (w.length + 3)
      (w.length + 3 + (w2.length + 3)) = 42 :: 32 :: (w2 ++ [10]) := hchunk
  have hgc : gChunk (uline w ++ ulist (w2 :: r2)) (w.length + 3)
      (w.length + 3 + (w2.length + 3)) = 42 :: 32 :: (w2 ++ [10]) := by
    simp only [gChunk]
    rw [hip]
    exact hchunk
  have hgc2 : gChunk2 (uline w ++ ulist (w2 :: r2)) (w.length + 3)
      (w.length + 3 + (w2.length + 3)) = 42 :: 32 :: (w2 ++ [10]) := by
    simp only [gChunk2]
    rw [hip]
    rw [if_neg (fun hc => absurd hc.1 (by decide))]
    exact hgc
  have hfn : gFlagsNested (42 :: 32 :: (w2 ++ [10])) false fl = fl := by
    simp only [gFlagsNested]
    rw [uline_listTypeChanged w2 [] fl ho hd]
    rw [if_neg (by decide), if_neg (by decide)]
  simp only [gatherStep]
  try dsimp only
  rw [if_pos (show (⟨w.length + 3, w.length + 3, raw, false, sub, fl⟩ : GatherSt).line <
    (uline w ++ ulist (w2 :: r2)).length by show w.length + 3 < _; rw [hlen]; omega)]
  rw [hscan]
  simp only [gatherStepCore]
  try dsimp only
  rw [hsl, uline_isEmpty w2 []]
  rw [if_neg (by omega)]
  rw [hgc, hgc2, hip]
  rw [if_neg (fun hc => absurd hc.1.2 (by decide))]
  rw [uline_uliPrefix w2 [], uline_isHRule w2 [] hw2]
  rw [if_pos (Or.inl ⟨by decide, by decide⟩)]
  rw [if_pos (by decide)]
  rw [hfn]

/-- A plain item at the head of a plain list parses to a single ListItem
wrapping the undressed line, consuming exactly its line, with all flags
unchanged. -/
theorem c3_item (fuel : Nat) (w : Bytes) (ws : List Bytes) (fl : ListTy)
    (hw : GoodWord w) (hws : ∀ u ∈ ws, GoodWord u)
    (ho : fl.ordered = false) (hd : fl.definition = false) (ht : fl.term = false)
    (hc : fl.containsBlock = false) :
    listItemFn (fuel + 1) (mkParser {} 16) (ulist (w :: ws)) fl =
      some (mkParser {} 16, fl,
        [Node.listItem fl 42 46 [Node.paragraph (w ++ [10])]], w.length + 3) := by
  rw [ulist_cons w ws]
  have hb0 : byteAt (42 :: 32 :: (w ++ 10 :: ulist ws)) 0 = 42 := rfl
  have hbb : byteAt (42 :: 32 :: (w ++ 10 :: ulist ws)) (2 - 2) = 42 := rfl
  have hsp : skipCharN (42 :: 32 :: (w ++ 10 :: ulist ws)) 0 spB 3 = 0 :=
    uline_skipsp w (ulist ws) 2
  have hup : uliPrefix (42 :: 32 :: (w ++ 10 :: ulist ws)) = 2 :=
    uline_uliPrefix w (ulist ws)
  have hi1 : skipChar (42 :: 32 :: (w ++ 10 :: ulist ws)) 2 spB = 2 :=
    uline_i1 w (ulist ws) hw
  have hsc : scanNl (42 :: 32 :: (w ++ 10 :: ulist ws)) 2 = w.length + 3 :=
    uline_scanNl2 w (ulist ws) hw
  have hslc : slice (42 :: 32 :: (w ++ 10 :: ulist ws)) 2 (w.length + 3) = w ++ [10] :=
    uline_slice w (ulist ws)
  obtain ⟨j, hg⟩ : ∃ j, gatherLines (mkParser {} 16) (42 :: 32 :: (w ++ 10 :: ulist ws))
      false 0 ⟨w.length + 3, w.length + 3, w ++ [10], false, 0, fl⟩ =
      ⟨w.length + 3, j, w ++ [10], false, 0, fl⟩ := by
    cases ws with
    | nil =>
      refine ⟨w.length + 3, gatherLines_inl _ _ _ _ _ _ ?_⟩
      exact uline_gatherStep_nil (mkParser {} 16) w false 0 fl (w ++ [10]) 0 _
        (by simp [ulist])
    | cons w2 r2 =>
      refine ⟨w.length + 3 + (w2.length + 3), ?_⟩
      rw [← uline_append w (ulist (w2 :: r2))]
      exact gatherLines_inl _ _ _ _ _ _
        (uline_gatherStep w w2 r2 fl (w ++ [10]) 0 (hws w2 (List.mem_cons_self _ _)) ho hd)
  simp +decide only [listItemFn, hb0, hbb, hsp, hup, hi1, hsc, hslc, hg, ho, hd, ht, hc,
    if_true, if_false]

/-- The item loop of list walks a plain list word by word, keeps the Tight
accumulator unchanged, and collects one plain ListItem per word. -/
theorem c3_loop (ws : List Bytes) (A : Bytes) (f : Nat) (bb tight : Bool)
    (acc : List Node) (hws : ∀ u ∈ ws, GoodWord u) (hf : ws.length + 1 ≤ f) :
    listLoopFn f (mkParser {} 16) (A ++ ulist ws) { beginList := bb } A.length tight acc =
      some (mkParser {} 16, A.length + (ulist ws).length, tight,
        acc ++ specTightItems ws bb) := by
  induction ws generalizing A f bb tight acc with
  | nil =>
    simp only [List.length_nil] at hf
    obtain ⟨f1, rfl⟩ : ∃ f1, f = f1 + 1 := ⟨f - 1, by omega⟩
    rw [listLoopFn_exit f1 (mkParser {} 16) (A ++ ulist []) { beginList := bb }
      A.length tight acc (by simp [ulist])]
    simp [ulist, specTightItems]
  | cons w rest ih =>
    simp only [List.length_cons] at hf
    obtain ⟨f1, rfl⟩ : ∃ f1, f = f1 + 1 := ⟨f - 1, by omega⟩
    obtain ⟨f2, rfl⟩ : ∃ f2, f1 = f2 + 1 := ⟨f1 - 1, by omega⟩
    have hitem : listItemFn (f2 + 1) (mkParser {} 16)
        ((A ++ ulist (w :: rest)).drop A.length) { beginList := bb } =
        some (mkParser {} 16, { beginList := bb },
          [Node.listItem { beginList := bb } 42 46 [Node.paragraph (w ++ [10])]],
          w.length + 3) := by
      rw [List.drop_left]
      exact c3_item f2 w rest { beginList := bb } (hws w (List.mem_cons_self _ _))
        (fun u hu => hws u (List.mem_cons.mpr (Or.inr hu))) rfl rfl rfl rfl
    have hi : A.length < (A ++ ulist (w :: rest)).length := by
      simp only [List.length_append, ulist_cons_length]
      omega
    have harr : A ++ ulist (w :: rest) = (A ++ uline w) ++ ulist rest := by
      show A ++ (uline w ++ ulist rest) = (A ++ uline w) ++ ulist rest
      rw [List.append_assoc]
    have hAl : (A ++ uline w).length = A.length + (w.length + 3) := by
      rw [List.length_append, uline_length]
    have hih := ih (A ++ uline w) (f2 + 1) false tight
      (acc ++ [Node.listItem { beginList := bb } 42 46 [Node.paragraph (w ++ [10])]])
      (fun u hu => hws u (List.mem_cons.mpr (Or.inr hu))) (by omega)
    refine Eq.trans (listLoopFn_step_cont (f2 + 1) (mkParser {} 16)
      (A ++ ulist (w :: rest)) { beginList := bb } A.length tight acc _ hi hitem ?_) ?_
    · intro hcon
      rcases hcon with hcon | hcon
      · exact absurd (show w.length + 3 = 0 from hcon) (by omega)
      · exact Bool.noConfusion (show false = true from hcon)
    · show listLoopFn (f2 + 1) (mkParser {} 16) (A ++ ulist (w :: rest))
        { beginList := false } (A.length + (w.length + 3)) tight
        (acc ++ [Node.listItem { beginList := bb } 42 46 [Node.paragraph (w ++ [10])]]) =
        some (mkParser {} 16, A.length + (ulist (w :: rest)).length, tight,
          acc ++ specTightItems (w :: rest) bb)
      rw [harr, ← hAl]
      refine hih.trans ?_
      rw [hAl, ulist_cons_length]
      simp [specTightItems]
      omega

end MD